import Mathlib

/-!
Shallow embedding of the letsyolo detection / configuration-reconciliation
engine (src/detect.ts, src/configure.ts, src/agents.ts, src/secrets.ts,
src/fs-utils.ts), together with theorems settling the specification claims.

Conventions of the embedding:
* JavaScript objects are association lists `List (String × Json)` in property
  insertion order (assignment to an existing key keeps its position, `delete`
  removes it, a fresh key is appended) — exactly the observable behaviour of
  plain JS objects.
* The filesystem is an explicit map from path to file content.  File content
  is represented by its parse outcome: `JSON.parse` / `@iarna/toml`'s `parse`
  are external collaborators, so a stored file is either a parse error
  (`SyntaxError`) or a parsed value.
* Async functions became pure functions threading the filesystem state; the
  engine functions additionally return the list of file read/write events
  they performed, so "touches no file" is a provable statement.
* `fs.readFile` failure is `none` in the path map (ENOENT); other IO errors
  are not modelled because no claim depends on them.
-/

namespace LetsYolo

/-- JSON values as produced by `JSON.parse` (numbers collapsed to `Int`;
no claim inspects numeric values). -/
inductive Json where
  | null
  | bool (b : Bool)
  | num (n : Int)
  | str (s : String)
  | arr (elems : List Json)
  | obj (fields : List (String × Json))

/-- JS property read `m[k]` on an object represented as an ordered
association list. -/
def getKey (m : List (String × Json)) (k : String) : Option Json :=
  match m with
  | [] => none
  | (k', v) :: rest => if k' = k then some v else getKey rest k

/-- JS property assignment `m[k] = v`: an existing key keeps its position,
a fresh key is appended. -/
def setKey (m : List (String × Json)) (k : String) (v : Json) :
    List (String × Json) :=
  match m with
  | [] => [(k, v)]
  | (k', v') :: rest =>
      if k' = k then (k', v) :: rest else (k', v') :: setKey rest k v

/-- JS `delete m[k]`. -/
def delKey (m : List (String × Json)) (k : String) : List (String × Json) :=
  match m with
  | [] => []
  | (k', v') :: rest => if k' = k then rest else (k', v') :: delKey rest k

/-- `v === "s"`: strict equality of a property value against a string
literal. -/
def isStrVal (v : Option Json) (s : String) : Bool :=
  match v with
  | some (.str t) => t == s
  | _ => false

/-- Outcome of `JSON.parse` on a file's text: either a `SyntaxError`
or a parsed value. -/
inductive JsonParse where
  | err (msg : String)
  | val (v : Json)

/-- Outcome of `@iarna/toml`'s `parse` on a file's text: either a thrown
parse error or a top-level table (TOML's top level is always a table). -/
inductive TomlParse where
  | err (msg : String)
  | table (fields : List (String × Json))

/-- Content of a stored file, represented by its parse outcome. -/
inductive FileContent where
  | jsonC (o : JsonParse)
  | tomlC (o : TomlParse)

/-- The filesystem: `none` means the file does not exist (reads throw
ENOENT). -/
def FsState : Type := String → Option FileContent

/-- Overwrite one path. -/
def FsState.update (fs : FsState) (p : String) (c : FileContent) : FsState :=
  fun q => if q = p then some c else fs q

/-- `!parsed || typeof parsed !== 'object' || Array.isArray(parsed)`
negated: only a non-null, non-array object passes. -/
def isPlainObject : Json → Bool
  | .obj _ => true
  | _ => false

/-- configure.ts `readJsonConfig` (current revision, lines 408–427):
missing file yields `{}`; a `SyntaxError` from `JSON.parse` is rethrown as
`Invalid JSON in <path>: <msg>`; a parsed non-object value raises
`Expected a JSON object in <path>`.  A file whose text is not JSON fails
`JSON.parse`, hence the `tomlC` arm is a `SyntaxError`. -/
def readJsonConfig (fs : FsState) (p : String) :
    Except String (List (String × Json)) :=
  match fs p with
  | none => .ok []
  | some (.jsonC (.err msg)) => .error ("Invalid JSON in " ++ p ++ ": " ++ msg)
  | some (.jsonC (.val v)) =>
      match v with
      | .obj fields => .ok fields
      | _ => .error ("Expected a JSON object in " ++ p)
  | some (.tomlC _) =>
      .error ("Invalid JSON in " ++ p ++ ": unexpected token")

/-- configure.ts `writeJsonConfig`: atomic write of
`JSON.stringify(config)`; reading the written file back parses to the same
object. -/
def writeJsonConfig (fs : FsState) (p : String) (m : List (String × Json)) :
    FsState :=
  fs.update p (.jsonC (.val (.obj m)))

/-- configure.ts `readTomlConfig` (current revision, lines 439–454):
missing file yields `{}`; any error thrown by `fromToml` is rethrown as
`Invalid TOML in <path>: <msg>`.  A stored JSON file's text failing the
TOML parser is likewise a parse error. -/
def readTomlConfig (fs : FsState) (p : String) :
    Except String (List (String × Json)) :=
  match fs p with
  | none => .ok []
  | some (.tomlC (.err msg)) => .error ("Invalid TOML in " ++ p ++ ": " ++ msg)
  | some (.tomlC (.table fields)) => .ok fields
  | some (.jsonC _) =>
      .error ("Invalid TOML in " ++ p ++ ": unexpected token")

/-- configure.ts `writeTomlConfig`: atomic write of `toToml(config)`. -/
def writeTomlConfig (fs : FsState) (p : String) (m : List (String × Json)) :
    FsState :=
  fs.update p (.tomlC (.table m))

/-- A file-level effect performed by the engine (`fs.readFile` inside the
config readers resp. `writeFileAtomic` inside the writers). -/
inductive Ev where
  | readF (p : String)
  | writeF (p : String)
  deriving DecidableEq

/-- Result of one per-agent enable/disable routine: the details string or a
thrown error, the filesystem afterwards, and the file events performed. -/
def OpOut : Type := Except String String × FsState × List Ev

/-- configure.ts `enableClaudeCode`: read the JSON config, force
`permissions` to be an object (`getOrCreateObject`), set
`permissions.defaultMode = "bypassPermissions"`, write back. -/
def enableClaudeCode (fs : FsState) (p : String) : OpOut :=
  match readJsonConfig fs p with
  | .error e => (.error e, fs, [.readF p])
  | .ok config =>
      let permissions :=
        match getKey config "permissions" with
        | some (.obj fields) => fields
        | _ => []
      let config' := setKey config "permissions"
        (.obj (setKey permissions "defaultMode" (.str "bypassPermissions")))
      (.ok "Set permissions.defaultMode = \"bypassPermissions\"",
        writeJsonConfig fs p config', [.readF p, .writeF p])

/-- configure.ts `disableClaudeCode`: delete `permissions.defaultMode` (and
prune an emptied `permissions` object) only when it strictly equals the
sentinel; otherwise report already disabled without writing. -/
def disableClaudeCode (fs : FsState) (p : String) : OpOut :=
  match readJsonConfig fs p with
  | .error e => (.error e, fs, [.readF p])
  | .ok config =>
      match getKey config "permissions" with
      | some (.obj perms) =>
          if isStrVal (getKey perms "defaultMode") "bypassPermissions" then
            let perms' := delKey perms "defaultMode"
            let config' :=
              if perms'.isEmpty then delKey config "permissions"
              else setKey config "permissions" (.obj perms')
            (.ok "Removed permissions.defaultMode",
              writeJsonConfig fs p config', [.readF p, .writeF p])
          else
            (.ok "Already disabled (no bypassPermissions found)", fs,
              [.readF p])
      | _ =>
          (.ok "Already disabled (no bypassPermissions found)", fs,
            [.readF p])

/-- configure.ts `isClaudeCodeEnabled`. -/
def isClaudeCodeEnabled (config : List (String × Json)) : Bool :=
  match getKey config "permissions" with
  | some (.obj perms) => isStrVal (getKey perms "defaultMode") "bypassPermissions"
  | _ => false

/-- configure.ts `getTomlString`: the value if it is a string, else
`undefined`. -/
def getTomlString (config : List (String × Json)) (k : String) :
    Option String :=
  match getKey config k with
  | some (.str s) => some s
  | _ => none

/-- configure.ts `enableCodex`: set the two flat sentinel keys and write. -/
def enableCodex (fs : FsState) (p : String) : OpOut :=
  match readTomlConfig fs p with
  | .error e => (.error e, fs, [.readF p])
  | .ok config =>
      let config' := setKey (setKey config "approval_policy" (.str "never"))
        "sandbox_mode" (.str "danger-full-access")
      (.ok "Set approval_policy = \"never\", sandbox_mode = \"danger-full-access\"",
        writeTomlConfig fs p config', [.readF p, .writeF p])

/-- configure.ts `disableCodex`: delete each sentinel key independently iff
it currently equals its sentinel; write only when something changed. -/
def disableCodex (fs : FsState) (p : String) : OpOut :=
  match readTomlConfig fs p with
  | .error e => (.error e, fs, [.readF p])
  | .ok config =>
      let step1 :=
        if getTomlString config "approval_policy" = some "never" then
          (delKey config "approval_policy", true)
        else (config, false)
      let step2 :=
        if getTomlString step1.1 "sandbox_mode" = some "danger-full-access" then
          (delKey step1.1 "sandbox_mode", true)
        else (step1.1, false)
      if step1.2 || step2.2 then
        (.ok "Removed approval_policy and sandbox_mode overrides",
          writeTomlConfig fs p step2.1, [.readF p, .writeF p])
      else
        (.ok "Already disabled (no yolo settings found)", fs, [.readF p])

/-- configure.ts `isCodexEnabled`: both sentinels must hold. -/
def isCodexEnabled (config : List (String × Json)) : Bool :=
  (getTomlString config "approval_policy" == some "never") &&
    (getTomlString config "sandbox_mode" == some "danger-full-access")

/-- configure.ts `enableCopilot`: ensure `trusted_folders` is an array and
write the config back; informs that only the per-session flag exists. -/
def enableCopilot (fs : FsState) (p : String) : OpOut :=
  match readJsonConfig fs p with
  | .error e => (.error e, fs, [.readF p])
  | .ok config =>
      let config' :=
        match getKey config "trusted_folders" with
        | some (.arr _) => config
        | _ => setKey config "trusted_folders" (.arr [])
      (.ok "No persistent yolo toggle exists for Copilot. Use `copilot --yolo` per-session. Config preserved.",
        writeJsonConfig fs p config', [.readF p, .writeF p])

/-- configure.ts `disableCopilot`: a pure message, no file access. -/
def disableCopilot (fs : FsState) (_p : String) : OpOut :=
  (.ok "No persistent yolo toggle to disable. Stop using `copilot --yolo` flag.",
    fs, [])

/-- configure.ts `enableAmplifier` (current revision): a pure message, no
file access. -/
def enableAmplifier (fs : FsState) (_p : Option String) : OpOut :=
  (.ok "No persistent yolo toggle exists for Amplifier. Run `amplifier` to start or `amplifier run \"<prompt>\"` for one-shot use.",
    fs, [])

/-- configure.ts `disableAmplifier` (current revision): a pure message, no
file access. -/
def disableAmplifier (fs : FsState) (_p : Option String) : OpOut :=
  (.ok "No persistent yolo toggle to disable for Amplifier.", fs, [])

/-- agents.ts / types.ts `AgentType`. -/
inductive AgentType where
  | claudeCode
  | codex
  | copilot
  | amplifier
  deriving DecidableEq

/-- types.ts `AgentDefinition` (current revision, with the optional config
path and the persistent-toggle flag). -/
structure AgentDefinition where
  type : AgentType
  displayName : String
  binaries : List String
  versionFlag : String
  installCommand : String
  yoloFlag : String
  configPath : Option String
  configFormat : String
  persistentToggle : Bool

/-- `os.homedir()`, modelled as an abstract constant path. -/
def home : String := "/home/u"

/-- Modelled from the spec: the `persistentToggle` field of each agent
definition.  The `agents.ts` revision under src omits this field although
`types.ts` requires it and `configure.ts` reads it; per the spec (§4.3:
Claude Code and Codex expose persistent nested-JSON / flat-TOML toggles,
GitHub Copilot and Amplifier are "no-persistent-toggle agents") and the
repository's session-only tests, it is true exactly for Claude Code and
Codex. -/
def persistentToggleOf : AgentType → Bool
  | .claudeCode => true
  | .codex => true
  | .copilot => false
  | .amplifier => false

/-- agents.ts `AGENT_DEFINITIONS` (current revision, lines 84–125), one
entry per agent; `persistentToggleOf` supplies the field missing from the
src revision. -/
def defOf : AgentType → AgentDefinition
  | .claudeCode =>
      { type := .claudeCode
        displayName := "Claude Code"
        binaries := ["claude"]
        versionFlag := "--version"
        installCommand := "npm install -g @anthropic-ai/claude-code"
        yoloFlag := "--dangerously-skip-permissions"
        configPath := some (home ++ "/.claude/settings.json")
        configFormat := "json"
        persistentToggle := persistentToggleOf .claudeCode }
  | .codex =>
      { type := .codex
        displayName := "Codex"
        binaries := ["codex"]
        versionFlag := "--version"
        installCommand := "npm install -g @openai/codex"
        yoloFlag := "--yolo"
        configPath := some (home ++ "/.codex/config.toml")
        configFormat := "toml"
        persistentToggle := persistentToggleOf .codex }
  | .copilot =>
      { type := .copilot
        displayName := "GitHub Copilot"
        binaries := ["copilot"]
        versionFlag := "--version"
        installCommand := "Install GitHub Copilot CLI (https://docs.github.com/en/copilot)"
        yoloFlag := "--yolo"
        configPath := some (home ++ "/.copilot/config.json")
        configFormat := "json"
        persistentToggle := persistentToggleOf .copilot }
  | .amplifier =>
      { type := .amplifier
        displayName := "Amplifier"
        binaries := ["amplifier", "amp"]
        versionFlag := "--version"
        installCommand := "uv tool install git+https://github.com/microsoft/amplifier"
        yoloFlag := "--dangerously-allow-all"
        configPath := some (home ++ "/.amplifier/settings.yaml")
        configFormat := "json"
        persistentToggle := persistentToggleOf .amplifier }

/-- agents.ts `AGENT_DEFINITIONS` as the ordered table iterated by
`checkYoloStatus`. -/
def AGENT_DEFINITIONS : List AgentDefinition :=
  [defOf .claudeCode, defOf .codex, defOf .copilot, defOf .amplifier]

/-- configure.ts `requireConfigPath`: throws when the definition exposes no
config file. -/
def requireConfigPath (configPath : Option String) (agentName : String) :
    Except String String :=
  match configPath with
  | none => .error (agentName ++ " does not expose a persistent config file")
  | some p => .ok p

/-- Run a per-agent routine behind `requireConfigPath`. -/
def withConfigPath (d : AgentDefinition)
    (op : FsState → String → OpOut) (fs : FsState) : OpOut :=
  match requireConfigPath d.configPath d.displayName with
  | .error e => (.error e, fs, [])
  | .ok p => op fs p

/-- types.ts `YoloConfig` (current revision, with `sessionOnly`). -/
structure YoloConfig where
  enabled : Bool
  sessionOnly : Bool
  configPath : Option String
  cliFlag : String
  details : String

/-- types.ts `YoloResult`. -/
structure YoloResult where
  type : AgentType
  displayName : String
  success : Bool
  error : Option String
  config : Option YoloConfig

/-- Ambient state of the configure engine: the filesystem plus the external
behaviour of the binary probes (`detectBinary` is abstracted as the `found`
bit it reports for a binary list and version flag, since `enableYolo` only
consults `detection.found`). -/
structure YoloEnv where
  fs : FsState
  found : List String → String → Bool

/-- In `enableYolo`, `enabled` is set to `true` only in the claude-code and
codex arms (after their routine succeeded). -/
def enabledOnEnable : AgentType → Bool
  | .claudeCode => true
  | .codex => true
  | .copilot => false
  | .amplifier => false

/-- configure.ts `enableYolo` (current revision, lines 587–642): requires
detection; on a miss returns the structured not-installed failure without
touching any file; otherwise dispatches per agent and wraps the outcome. -/
def enableYolo (env : YoloEnv) (agentType : AgentType) :
    YoloResult × FsState × List Ev :=
  let d := defOf agentType
  if env.found d.binaries d.versionFlag = false then
    ({ type := agentType, displayName := d.displayName, success := false
       error := some ("Not installed. Install with: " ++ d.installCommand)
       config := none }, env.fs, [])
  else
    let step : OpOut :=
      match agentType with
      | .claudeCode => withConfigPath d enableClaudeCode env.fs
      | .codex => withConfigPath d enableCodex env.fs
      | .copilot => withConfigPath d enableCopilot env.fs
      | .amplifier => enableAmplifier env.fs d.configPath
    match step with
    | (.ok details, fs', evs) =>
        ({ type := agentType, displayName := d.displayName, success := true
           error := none
           config := some { enabled := enabledOnEnable agentType
                            sessionOnly := !d.persistentToggle
                            configPath := d.configPath
                            cliFlag := d.yoloFlag
                            details := details } }, fs', evs)
    | (.error msg, fs', evs) =>
        ({ type := agentType, displayName := d.displayName, success := false
           error := some msg, config := none }, fs', evs)

/-- configure.ts `disableYolo` (current revision, lines 647–688): no
detection check; dispatches per agent and wraps the outcome with
`enabled := false`. -/
def disableYolo (env : YoloEnv) (agentType : AgentType) :
    YoloResult × FsState × List Ev :=
  let d := defOf agentType
  let step : OpOut :=
    match agentType with
    | .claudeCode => withConfigPath d disableClaudeCode env.fs
    | .codex => withConfigPath d disableCodex env.fs
    | .copilot => withConfigPath d disableCopilot env.fs
    | .amplifier => disableAmplifier env.fs d.configPath
  match step with
  | (.ok details, fs', evs) =>
      ({ type := agentType, displayName := d.displayName, success := true
         error := none
         config := some { enabled := false
                          sessionOnly := !d.persistentToggle
                          configPath := d.configPath
                          cliFlag := d.yoloFlag
                          details := details } }, fs', evs)
  | (.error msg, fs', evs) =>
      ({ type := agentType, displayName := d.displayName, success := false
         error := some msg, config := none }, fs', evs)

/-- One iteration of configure.ts `checkYoloStatus` for a definition:
undetected agents report not installed; detected ones read their config and
evaluate their enabled predicate (copilot and amplifier never set
`enabled`); a read error is caught into the details string with `enabled`
left false. -/
def statusFor (env : YoloEnv) (d : AgentDefinition) : YoloResult :=
  if env.found d.binaries d.versionFlag = false then
    { type := d.type, displayName := d.displayName, success := true
      error := none
      config := some { enabled := false, sessionOnly := !d.persistentToggle
                       configPath := d.configPath, cliFlag := d.yoloFlag
                       details := "Not installed" } }
  else
    let checked : Bool × String :=
      match d.type with
      | .claudeCode =>
          match requireConfigPath d.configPath d.displayName with
          | .error e => (false, "Could not read config (" ++ e ++ ")")
          | .ok p =>
              match readJsonConfig env.fs p with
              | .error e => (false, "Could not read config (" ++ e ++ ")")
              | .ok config =>
                  let en := isClaudeCodeEnabled config
                  (en, if en then "permissions.defaultMode = \"bypassPermissions\""
                       else "Default permissions")
      | .codex =>
          match requireConfigPath d.configPath d.displayName with
          | .error e => (false, "Could not read config (" ++ e ++ ")")
          | .ok p =>
              match readTomlConfig env.fs p with
              | .error e => (false, "Could not read config (" ++ e ++ ")")
              | .ok config =>
                  let en := isCodexEnabled config
                  (en, if en then "approval_policy = \"never\", sandbox_mode = \"danger-full-access\""
                       else "Default approval policy")
      | .copilot => (false, "No persistent yolo toggle (use --yolo flag)")
      | .amplifier =>
          (false, "No persistent yolo toggle. Run `amplifier` or `amplifier run \"<prompt>\"`.")
    { type := d.type, displayName := d.displayName, success := true
      error := none
      config := some { enabled := checked.1, sessionOnly := !d.persistentToggle
                       configPath := d.configPath, cliFlag := d.yoloFlag
                       details := checked.2 } }

/-- configure.ts `checkYoloStatus` (current revision, lines 709–775). -/
def checkYoloStatus (env : YoloEnv) : List YoloResult :=
  AGENT_DEFINITIONS.map (statusFor env)

/-- Outcome of one external process execution attempted by
`execFileAsync(cmd, [versionFlag], { timeout: 5000 })` in detect.ts. -/
inductive ExecOutcome where
  | spawnFailure
  | timedOut
  | exited (code : Nat) (stdout stderr : String)

/-- Semantics of Node's promisified `child_process.execFile`: the promise
resolves with `{ stdout, stderr }` only when the child process exits
normally with code 0; a spawn/exec-level failure, a kill by the timeout,
and a non-zero exit code all reject the promise (Node attaches the captured
output to the error object, but `detectBinary`'s `catch` discards it). -/
def execResolves : ExecOutcome → Option (String × String)
  | .exited 0 out err => some (out, err)
  | _ => none

/-- Ambient behaviour consumed by `detectBinary`: the outcome of running a
candidate with the version flag, the candidate list produced by
`getCandidatePaths` for each binary name, the output of `which`/`where`
(`none` when that lookup itself fails), and `path.isAbsolute`. -/
structure DetectEnv where
  exec : String → String → ExecOutcome
  candidatesOf : String → List String
  whichOf : String → Option String
  isAbsolutePath : String → Bool

/-- detect.ts `detectBinary`'s result shape. -/
structure BinProbe where
  found : Bool
  path : Option String
  version : Option String
  deriving DecidableEq

/-- The inner candidate loop of detect.ts `detectBinary` (lines 52–83): try
each candidate; a resolved execution yields `found = true` with the version
taken as the first non-empty line of combined output and the path resolved
through `which` when the candidate is not absolute; a rejected execution
falls through to the next candidate. -/
def probeCandidates (denv : DetectEnv) (versionFlag : String) :
    List String → Option BinProbe
  | [] => none
  | cmd :: rest =>
      match execResolves (denv.exec cmd versionFlag) with
      | some (out, err) =>
          let output := (out ++ "\n" ++ err).trim
          let firstLine := ((output.splitOn "\n").headD "").trim
          let version := if firstLine = "" then none else some firstLine
          let resolvedPath :=
            if denv.isAbsolutePath cmd then cmd
            else
              match denv.whichOf cmd with
              | some w =>
                  if w = "" then cmd else (w.trim.splitOn "\n").headD ""
              | none => cmd
          some { found := true, path := some resolvedPath, version := version }
      | none => probeCandidates denv versionFlag rest

/-- detect.ts `detectBinary`: try each binary name variant's candidates in
order; `found = false` only when every candidate of every variant fails. -/
def detectBinary (denv : DetectEnv) (binaries : List String)
    (versionFlag : String) : BinProbe :=
  match binaries with
  | [] => { found := false, path := none, version := none }
  | b :: rest =>
      match probeCandidates denv versionFlag (denv.candidatesOf b) with
      | some r => r
      | none => detectBinary denv rest versionFlag

/-- Ambient state consumed by `getCandidatePaths`: the platform check, the
home directory, and the `readdir` of `~/.nvm/versions/node` (`none` when
the directory cannot be listed — nvm not installed). -/
structure PathsEnv where
  platformWin32 : Bool
  homeDir : String
  nvmEntries : Option (List String)

/-- `path.join` on POSIX paths as used here (plain segments). -/
def pathJoin (a b : String) : String := a ++ "/" ++ b

/-- JS `entry.startsWith('v')`: the first character is `v`. -/
def startsWithV (entry : String) : Bool :=
  match entry.data with
  | [] => false
  | c :: _ => c = 'v'

/-- `Set.add`: append only if not already present (JS `Set` keeps first
insertion order and deduplicates). -/
def insertUnique (l : List String) (x : String) : List String :=
  if x ∈ l then l else l ++ [x]

/-- detect.ts `getCandidatePaths` (lines 16–42): the bare name first; on
non-Windows platforms the four fixed install prefixes, then one candidate
per entry of the nvm versions directory whose name starts with `v`
(`if (!entry.startsWith('v')) continue;`); a missing nvm directory
contributes nothing. -/
def getCandidatePaths (penv : PathsEnv) (binaryName : String) :
    List String :=
  let candidates := [binaryName]
  if penv.platformWin32 then candidates
  else
    let fixed := ["/usr/local/bin/" ++ binaryName,
      "/opt/homebrew/bin/" ++ binaryName,
      "/usr/bin/" ++ binaryName,
      pathJoin (pathJoin (pathJoin penv.homeDir ".local") "bin") binaryName]
    let candidates := fixed.foldl insertUnique candidates
    let nvmDir := pathJoin (pathJoin (pathJoin penv.homeDir ".nvm") "versions")
      "node"
    match penv.nvmEntries with
    | none => candidates
    | some entries =>
        entries.foldl (fun acc entry =>
          if startsWithV entry then
            insertUnique acc
              (pathJoin (pathJoin (pathJoin nvmDir entry) "bin") binaryName)
          else acc) candidates

/-- The nvm-derived candidate path for a directory entry. -/
def nvmCandidate (penv : PathsEnv) (binaryName entry : String) : String :=
  pathJoin (pathJoin (pathJoin (pathJoin (pathJoin
    (pathJoin penv.homeDir ".nvm") "versions") "node") entry) "bin")
    binaryName

/-- `v<digits...>`: the naming pattern the spec ascribes to the nvm entry
filter — a `v` followed by one or more decimal digits (stated from the
spec's words, for comparison with the code's `startsWith('v')` filter). -/
def specVersionPattern (entry : String) : Bool :=
  match entry.data with
  | [] => false
  | c :: rest => c = 'v' && !rest.isEmpty && rest.all Char.isDigit

/-- A concrete probe environment: the single candidate `mybin` runs,
prints `mybin 1.2.3` on stdout, and exits with status 1. -/
def nonZeroExitEnv : DetectEnv :=
  { exec := fun cmd _ =>
      if cmd = "mybin" then .exited 1 "mybin 1.2.3" "" else .spawnFailure
    candidatesOf := fun b => [b]
    whichOf := fun _ => none
    isAbsolutePath := fun _ => false }

/-! The secrets module (secrets.ts, current revision).  Text is modelled as
`List Char` so that every operation evaluates inside the kernel; `String`
values enter through `.data`. -/

/-- Text as a list of characters. -/
abbrev Chars := List Char

/-- The double-quote character. -/
def dquote : Char := Char.ofNat 34

/-- The single-quote character. -/
def squote : Char := Char.ofNat 39

/-- The backslash character. -/
def bslash : Char := Char.ofNat 92

/-- The backtick character. -/
def btick : Char := Char.ofNat 96

/-- JS `\s` / `trim` whitespace class (the inputs at hand are ASCII). -/
def isWs (c : Char) : Bool := c.isWhitespace

/-- JS `String.prototype.trim`. -/
def trimL (l : Chars) : Chars :=
  ((l.dropWhile isWs).reverse.dropWhile isWs).reverse

/-- JS `value.replace(/c/g, r)` for a single-character pattern. -/
def replaceAllCh (c : Char) (r : Chars) : Chars → Chars
  | [] => []
  | x :: xs => (if x = c then r else [x]) ++ replaceAllCh c r xs

/-- secrets.ts `escapeForDoubleQuotes` (lines 278–287): seven global
replaces applied in order — backslash first, then newline, carriage
return, tab, double quote, dollar, backtick. -/
def escapeForDoubleQuotes (value : Chars) : Chars :=
  replaceAllCh btick [bslash, btick]
    (replaceAllCh '$' [bslash, '$']
      (replaceAllCh dquote [bslash, dquote]
        (replaceAllCh '\t' [bslash, 't']
          (replaceAllCh '\r' [bslash, 'r']
            (replaceAllCh '\n' [bslash, 'n']
              (replaceAllCh bslash [bslash, bslash] value))))))

/-- The `switch` of `unescapeDoubleQuotedValue`: `n`, `r`, `t` decode to
control characters; every other escaped character (including the default
arm) stands for itself. -/
def decodeEsc (c : Char) : Char :=
  if c = 'n' then '\n'
  else if c = 'r' then '\r'
  else if c = 't' then '\t'
  else c

/-- secrets.ts `unescapeDoubleQuotedValue` (lines 289–329): a backslash
consumes the next character through `decodeEsc`; a trailing lone backslash
is kept. -/
def unescapeDoubleQuotedValue : Chars → Chars
  | [] => []
  | c :: rest =>
      if c = bslash then
        match rest with
        | [] => [bslash]
        | next :: rest' => decodeEsc next :: unescapeDoubleQuotedValue rest'
      else c :: unescapeDoubleQuotedValue rest

/-- secrets.ts `quoteEnvValue`. -/
def quoteEnvValue (value : Chars) : Chars :=
  dquote :: (escapeForDoubleQuotes value ++ [dquote])

/-- First character class of the key regex `[A-Z_]`. -/
def isKeyStart (c : Char) : Bool := ('A' ≤ c && c ≤ 'Z') || c = '_'

/-- Later character class of the key regex `[A-Z0-9_]`. -/
def isKeyChar (c : Char) : Bool := isKeyStart c || ('0' ≤ c && c ≤ '9')

/-- JS `slice(1, -1)`. -/
def sliceInner (l : Chars) : Chars := (l.drop 1).dropLast

/-- JS `rawValue.split(/\s+#/, 1)[0]`: the prefix before the first
whitespace run that is immediately followed by `#`. -/
def splitHashComment : Chars → Chars
  | [] => []
  | c :: rest =>
      if isWs c && ((rest.dropWhile isWs).head? == some '#') then []
      else c :: splitHashComment rest

/-- The `([A-Z_][A-Z0-9_]*)\s*=\s*(.*)$` part of the `parseEnvLine` regex:
the greedy key, optional whitespace, `=`, and the rest of the line. -/
def matchKeyEq (l : Chars) : Option (Chars × Chars) :=
  match l with
  | [] => none
  | c :: rest =>
      if isKeyStart c then
        let key := c :: rest.takeWhile isKeyChar
        let after := (rest.dropWhile isKeyChar).dropWhile isWs
        match after with
        | '=' :: r => some (key, r)
        | _ => none
      else none

/-- Whether a character list starts with a whitespace character. -/
def headIsWs (l : Chars) : Bool :=
  match l with
  | [] => false
  | c :: _ => isWs c

/-- The optional `(?:export\s+)?` prefix of the `parseEnvLine` regex: a
literal `export` followed by at least one whitespace character is consumed
together with the whitespace run; otherwise the line is kept whole (keys
are upper-case, so when the prefix is present no alternative match
exists). -/
def exportStrip (line : Chars) : Chars :=
  match line with
  | 'e' :: 'x' :: 'p' :: 'o' :: 'r' :: 't' :: c :: rest =>
      if isWs c then (c :: rest).dropWhile isWs else line
  | _ => line

/-- The three quote-style arms of `parseEnvLine` on the trimmed raw value:
a double-quoted value is unescaped, a single-quoted value stripped
verbatim, an unquoted value cut at a whitespace-`#` comment and trimmed.
As in JS, `startsWith + endsWith` both hold on the one-character
string `"`. -/
def parseValuePart (rawValue : Chars) : Chars :=
  if (rawValue.head? == some dquote) &&
      (rawValue.getLast? == some dquote) then
    unescapeDoubleQuotedValue (sliceInner rawValue)
  else if (rawValue.head? == some squote) &&
      (rawValue.getLast? == some squote) then
    sliceInner rawValue
  else trimL (splitHashComment rawValue)

/-- The key/value split after the optional export prefix was removed. -/
def parseKeyValue (body : Chars) : Option (Chars × Chars) :=
  match matchKeyEq body with
  | none => none
  | some kv => some (kv.1, parseValuePart (trimL (kv.2.dropWhile isWs)))

/-- secrets.ts `parseEnvLine` (lines 335–353): the regex
`^(?:export\s+)?([A-Z_][A-Z0-9_]*)\s*=\s*(.*)$` unfolded
deterministically, followed by the quote-style arms on
`match[2].trim()`. -/
def parseEnvLine (line : Chars) : Option (Chars × Chars) :=
  parseKeyValue (exportStrip line)

/-- JS `data.split('\n')`. -/
def splitNl : Chars → List Chars
  | [] => [[]]
  | c :: rest =>
      if c = '\n' then [] :: splitNl rest
      else
        match splitNl rest with
        | [] => [[c]]
        | line :: more => (c :: line) :: more

/-- JS `lines.join('\n')`. -/
def intercalateNl : List Chars → Chars
  | [] => []
  | [l] => l
  | l :: ls => l ++ '\n' :: intercalateNl ls

/-- A JS `Map<string, string>` observed through `get`. -/
def EnvMap : Type := Chars → Option Chars

/-- `Map.set`. -/
def setMap (m : EnvMap) (k v : Chars) : EnvMap :=
  fun x => if x = k then some v else m x

/-- The empty map. -/
def emptyEnvMap : EnvMap := fun _ => none

/-- One line of secrets.ts `readSecrets` (lines 358–376): skip blank and
`#` lines, store any parsed assignment. -/
def readSecretsLine (m : EnvMap) (line : Chars) : EnvMap :=
  let t := trimL line
  if t.isEmpty || (t.head? == some '#') then m
  else
    match parseEnvLine t with
    | some kv => setMap m kv.1 kv.2
    | none => m

/-- secrets.ts `readSecrets` over a list of lines. -/
def readSecretsLines (lines : List Chars) : EnvMap :=
  lines.foldl readSecretsLine emptyEnvMap

/-- secrets.ts `readSecrets` over the file text. -/
def readSecretsMap (data : Chars) : EnvMap :=
  readSecretsLines (splitNl data)

/-- secrets.ts `ApiKeyDefinition`. -/
structure ApiKeyDefinition where
  envVar : Chars
  displayName : String
  agent : String
  hint : String

/-- secrets.ts `API_KEYS` (current revision, lines 251–276). -/
def API_KEYS : List ApiKeyDefinition :=
  [{ envVar := "ANTHROPIC_API_KEY".data
     displayName := "Anthropic API Key"
     agent := "Claude Code"
     hint := "https://console.anthropic.com/settings/keys" },
   { envVar := "OPENAI_API_KEY".data
     displayName := "OpenAI API Key"
     agent := "Codex"
     hint := "https://platform.openai.com/api-keys" },
   { envVar := "GITHUB_TOKEN".data
     displayName := "GitHub Token"
     agent := "GitHub Copilot"
     hint := "https://github.com/settings/tokens (or use `gh auth login`)" },
   { envVar := "AMPLIFIER_CONFIGURED".data
     displayName := "Amplifier Provider Keys"
     agent := "Amplifier"
     hint := "Managed by Amplifier in ~/.amplifier/keys.env (run `amplifier init` or `amplifier provider use`)" }]

/-- The virtual key skipped by the writer. -/
def amplifierVar : Chars := "AMPLIFIER_CONFIGURED".data

/-- `Map.get` on a map given by its insertion-ordered entry list (keys
unique). -/
def mapGet (m : List (Chars × Chars)) (k : Chars) : Option Chars :=
  match m with
  | [] => none
  | kv :: rest => if kv.1 = k then some kv.2 else mapGet rest k

/-- One serialized assignment line `export KEY="escaped"`. -/
def exportLine (k v : Chars) : Chars :=
  "export ".data ++ k ++ '=' :: quoteEnvValue v

/-- The fixed header of the secrets file. -/
def headerLines : List Chars :=
  ["# letsyolo API keys — sourced by your shell profile".data,
   "# DO NOT commit this file to version control".data,
   []]

/-- secrets.ts `writeSecrets` (current revision, lines 381–408), producing
the `lines` array: known keys from the static table (skipping the virtual
`AMPLIFIER_CONFIGURED` key and falsy values), then every map entry whose
key is not in the static table, then a trailing empty line. -/
def writeSecretsLines (secrets : List (Chars × Chars)) : List Chars :=
  let known := API_KEYS.foldl (fun acc keyDef =>
    if keyDef.envVar = amplifierVar then acc
    else
      match mapGet secrets keyDef.envVar with
      | some v =>
          if v.isEmpty then acc else acc ++ [exportLine keyDef.envVar v]
      | none => acc) []
  let extra := secrets.foldl (fun acc kv =>
    if API_KEYS.any (fun d => d.envVar == kv.1) then acc
    else acc ++ [exportLine kv.1 kv.2]) []
  headerLines ++ known ++ extra ++ [[]]

/-- The text written by `writeSecrets` (`lines.join('\n')`). -/
def writeSecretsContent (secrets : List (Chars × Chars)) : Chars :=
  intercalateNl (writeSecretsLines secrets)

/-- A well-formed environment-variable name: exactly the strings matched by
the key regex `^[A-Z_][A-Z0-9_]*$` — every key `readSecrets` can ever
produce. -/
def validKeyName (k : Chars) : Bool :=
  match k with
  | [] => false
  | c :: rest => isKeyStart c && rest.all isKeyChar

/-- A value with its provenance, as built by `scanForExistingKeys`. -/
structure ScanEntry where
  value : Chars
  source : String
  deriving DecidableEq

/-- The map built during a scan, observed through `get`/`has`. -/
def ScanMap : Type := Chars → Option ScanEntry

/-- `Map.set` during a scan. -/
def scanSet (m : ScanMap) (k : Chars) (e : ScanEntry) : ScanMap :=
  fun x => if x = k then some e else m x

/-- The empty scan map. -/
def emptyScanMap : ScanMap := fun _ => none

/-- `new Set(API_KEYS.map((k) => k.envVar))`, as its ordered support. -/
def targetVars : List Chars := API_KEYS.map (fun d => d.envVar)

/-- Ambient state of a scan: `process.env` and readable file text by path
(`none` when `fs.readFile` throws). -/
structure ScanEnv where
  envVal : Chars → Option Chars
  fileText : String → Option Chars

/-- secrets.ts `SECRETS_FILE`. -/
def SECRETS_FILE : String := home ++ "/.letsyolo/secrets.env"

/-- secrets.ts `getSearchPaths` (lines 546–563): the fixed precedence list
of dotfiles. -/
def getSearchPaths : List String :=
  [SECRETS_FILE,
   home ++ "/.env",
   home ++ "/.secrets",
   home ++ "/.secrets.env",
   home ++ "/.zshrc",
   home ++ "/.bashrc",
   home ++ "/.bash_profile",
   home ++ "/.profile",
   home ++ "/.zshenv",
   home ++ "/.config/.env",
   home ++ "/.config/env",
   home ++ "/.config/secrets",
   home ++ "/.amplifier/keys.env"]

/-- `filePath.startsWith(home) ? '~' + filePath.slice(home.length) :
filePath`. -/
def relPath (p : String) : String :=
  if p.data.take home.data.length = home.data then
    "~" ++ String.mk (p.data.drop home.data.length)
  else p

/-- One step of the environment pass of `scanForExistingKeys` (lines
596–602): skip the virtual key, record truthy environment values with
source `environment`. -/
def scanEnvStep (env : ScanEnv) (m : ScanMap) (envVar : Chars) : ScanMap :=
  if envVar = amplifierVar then m
  else
    match env.envVal envVar with
    | some v => if v.isEmpty then m else scanSet m envVar ⟨v, "environment"⟩
    | none => m

/-- The environment pass over the target variables. -/
def scanEnvPhase (env : ScanEnv) : ScanMap :=
  targetVars.foldl (scanEnvStep env) emptyScanMap

/-- One scanned line of a dotfile (lines 608–617): skip blank and `#`
lines; record a parsed assignment only when its key is a target variable
not already found. -/
def scanLineStep (src : String) (m : ScanMap) (line : Chars) : ScanMap :=
  let t := trimL line
  if t.isEmpty || (t.head? == some '#') then m
  else
    match parseEnvLine t with
    | some kv =>
        if targetVars.contains kv.1 && (m kv.1).isNone then
          scanSet m kv.1 ⟨kv.2, src⟩
        else m
    | none => m

/-- One scanned file: an unreadable file is skipped. -/
def scanFileStep (env : ScanEnv) (m : ScanMap) (p : String) : ScanMap :=
  match env.fileText p with
  | none => m
  | some data => (splitNl data).foldl (scanLineStep (relPath p)) m

/-- The dotfile pass over the fixed search-path list. -/
def scanFilesPhase (env : ScanEnv) (m : ScanMap) : ScanMap :=
  getSearchPaths.foldl (scanFileStep env) m

/-- secrets.ts `checkAmplifierKeys`: whether `~/.amplifier/keys.env` holds
at least one parsed assignment with a non-empty value. -/
def amplifierKeysConfigured (env : ScanEnv) : Bool :=
  match env.fileText (home ++ "/.amplifier/keys.env") with
  | none => false
  | some data =>
      (splitNl data).any (fun line =>
        let t := trimL line
        if t.isEmpty || (t.head? == some '#') then false
        else
          match parseEnvLine t with
          | some kv => !kv.2.isEmpty
          | none => false)

/-- secrets.ts `scanForExistingKeys` (lines 590–633): environment first,
then the dotfiles in precedence order, then the amplifier self-managed
check when the virtual key was not found. -/
def scanForExistingKeys (env : ScanEnv) : ScanMap :=
  let m := scanFilesPhase env (scanEnvPhase env)
  if (m amplifierVar).isNone && amplifierKeysConfigured env then
    scanSet m amplifierVar ⟨"configured".data, "~/.amplifier/keys.env"⟩
  else m

/-- The value a single line assigns to the key `k` under the scan's line
discipline: `none` for blank/comment/unparsed lines and lines for other
keys. -/
def lineVal (k : Chars) (line : Chars) : Option Chars :=
  let t := trimL line
  if t.isEmpty || (t.head? == some '#') then none
  else
    match parseEnvLine t with
    | some kv => if kv.1 = k then some kv.2 else none
    | none => none

/-- The first value a list of lines assigns to `k`. -/
def firstValLines (k : Chars) : List Chars → Option Chars
  | [] => none
  | line :: rest =>
      match lineVal k line with
      | some v => some v
      | none => firstValLines k rest

/-- The first value a file's text assigns to `k` (used to state scan
precedence). -/
def fileFirstVal (data : Chars) (k : Chars) : Option Chars :=
  firstValLines k (splitNl data)

/-- `fileFirstVal` lifted over a possibly unreadable file. -/
def pathFirstVal (env : ScanEnv) (p : String) (k : Chars) : Option Chars :=
  match env.fileText p with
  | none => none
  | some data => fileFirstVal data k

/-- The per-character effect of the seven replaces of
`escapeForDoubleQuotes` (their order makes them equivalent to one
character-wise pass). -/
def escChar (c : Char) : Chars :=
  if c = bslash then [bslash, bslash]
  else if c = '\n' then [bslash, 'n']
  else if c = '\r' then [bslash, 'r']
  else if c = '\t' then [bslash, 't']
  else if c = dquote then [bslash, dquote]
  else if c = '$' then [bslash, '$']
  else if c = btick then [bslash, btick]
  else [c]

/-- The value attached to the last entry with key `k` (JS map semantics of
repeated `set` while reading lines in order). -/
def assocLast (pairs : List (Chars × Chars)) (k : Chars) : Option Chars :=
  match pairs with
  | [] => none
  | e :: rest =>
      match assocLast rest k with
      | some v => some v
      | none => if e.1 = k then some e.2 else none

/-- The entry the known-keys pass of `writeSecrets` emits for one table
row: nothing for the virtual key, nothing for an absent or falsy value. -/
def knownPair (secrets : List (Chars × Chars)) (keyDef : ApiKeyDefinition) :
    Option (Chars × Chars) :=
  if keyDef.envVar = amplifierVar then none
  else
    match mapGet secrets keyDef.envVar with
    | some v => if v.isEmpty then none else some (keyDef.envVar, v)
    | none => none

/-- The entry the extra-keys pass of `writeSecrets` emits for one map
entry: nothing when the key is in the static table. -/
def extraPair (kv : Chars × Chars) : Option (Chars × Chars) :=
  if API_KEYS.any (fun d => d.envVar == kv.1) then none else some kv

/-- All (key, value) entries `writeSecrets` serializes, in order. -/
def bodyPairs (secrets : List (Chars × Chars)) : List (Chars × Chars) :=
  API_KEYS.filterMap (knownPair secrets) ++ secrets.filterMap extraPair

/-- A concrete scan environment: the Anthropic key is in the process
environment and in the secrets file; the OpenAI key is in the secrets
file and in `~/.zshrc` but not in the environment. -/
def scanDemoEnv : ScanEnv :=
  { envVal := fun x =>
      if x = "ANTHROPIC_API_KEY".data then some "sk-env".data else none
    fileText := fun p =>
      if p = SECRETS_FILE then
        some "ANTHROPIC_API_KEY=\"sk-file\"\nOPENAI_API_KEY=\"sk-secrets\"".data
      else if p = home ++ "/.zshrc" then
        some "export OPENAI_API_KEY=\"sk-zshrc\"".data
      else none }

end LetsYolo

namespace LetsYolo

theorem getKey_eq_none_of_not_mem (m : List (String × Json)) (k : String)
    (h : k ∉ m.map Prod.fst) : getKey m k = none := by
  induction m with
  | nil => rfl
  | cons kv rest ih =>
    simp only [List.map_cons, List.mem_cons, not_or] at h
    simp only [getKey]
    rw [if_neg (fun hh => h.1 hh.symm)]
    exact ih h.2

theorem delKey_sublist (m : List (String × Json)) (k : String) :
    List.Sublist (delKey m k) m := by
  induction m with
  | nil => simp [delKey]
  | cons kv rest ih =>
    simp only [delKey]
    by_cases h0 : kv.1 = k
    · simp only [h0, if_pos rfl]
      exact (List.sublist_cons_self _ _)
    · rw [if_neg h0]
      exact ih.cons₂ kv

theorem delKey_nodup (m : List (String × Json)) (k : String)
    (hnd : (m.map Prod.fst).Nodup) : ((delKey m k).map Prod.fst).Nodup :=
  hnd.sublist ((delKey_sublist m k).map Prod.fst)

theorem getKey_delKey_ne (m : List (String × Json)) (k k' : String)
    (h : k' ≠ k) : getKey (delKey m k) k' = getKey m k' := by
  induction m with
  | nil => rfl
  | cons kv rest ih =>
    simp only [delKey]
    by_cases h0 : kv.1 = k
    · rw [if_pos h0]
      simp only [getKey]
      rw [if_neg (fun hh : kv.1 = k' => h (hh ▸ h0))]
    · rw [if_neg h0]
      simp only [getKey]
      by_cases h1 : kv.1 = k'
      · rw [if_pos h1, if_pos h1]
      · rw [if_neg h1, if_neg h1]
        exact ih

theorem getKey_delKey_self (m : List (String × Json)) (k : String)
    (hnd : (m.map Prod.fst).Nodup) : getKey (delKey m k) k = none := by
  induction m with
  | nil => rfl
  | cons kv rest ih =>
    simp only [List.map_cons, List.nodup_cons] at hnd
    simp only [delKey]
    by_cases h0 : kv.1 = k
    · rw [if_pos h0]
      exact getKey_eq_none_of_not_mem rest k (h0 ▸ hnd.1)
    · rw [if_neg h0]
      simp only [getKey]
      rw [if_neg h0]
      exact ih hnd.2

/-- C1: for every config path, `readJsonConfig` and `readTomlConfig` return
the empty map when the file does not exist, and when the file exists but its
parser fails they return an error whose message contains the offending path
— in particular a malformed existing file is never treated as an empty
map. -/
theorem c1_read_missing_empty_malformed_error (fs : FsState) (p : String) :
    (fs p = none → readJsonConfig fs p = .ok [] ∧ readTomlConfig fs p = .ok [])
    ∧ (∀ msg, fs p = some (.jsonC (.err msg)) →
        ∃ e, readJsonConfig fs p = .error e ∧ ∃ pre post, e = pre ++ p ++ post)
    ∧ (∀ msg, fs p = some (.tomlC (.err msg)) →
        ∃ e, readTomlConfig fs p = .error e ∧
          ∃ pre post, e = pre ++ p ++ post) := by
  refine ⟨fun h => ?_, fun msg h => ?_, fun msg h => ?_⟩
  · simp [readJsonConfig, readTomlConfig, h]
  · refine ⟨"Invalid JSON in " ++ p ++ ": " ++ msg, by simp [readJsonConfig, h],
      "Invalid JSON in ", ": " ++ msg, ?_⟩
    simp [String.append_assoc]
  · refine ⟨"Invalid TOML in " ++ p ++ ": " ++ msg, by simp [readTomlConfig, h],
      "Invalid TOML in ", ": " ++ msg, ?_⟩
    simp [String.append_assoc]

/-- Witness for C1 at a concrete filesystem: an absent path reads as the
empty map, and a malformed JSON file at the same path reads as an error. -/
theorem c1_read_missing_empty_malformed_error_witness :
    (readJsonConfig (fun _ => none) "cfg.json" = .ok []
      ∧ readTomlConfig (fun _ => none) "cfg.json" = .ok [])
    ∧ ∃ e, readJsonConfig
        (fun q => if q = "cfg.json" then some (.jsonC (.err "bad")) else none)
        "cfg.json" = .error e ∧ ∃ pre post, e = pre ++ "cfg.json" ++ post := by
  refine ⟨(c1_read_missing_empty_malformed_error (fun _ => none) "cfg.json").1
    rfl, ?_⟩
  exact (c1_read_missing_empty_malformed_error _ "cfg.json").2.1 "bad"
    (by simp)

/-- C3: when the agent's binary is not detected, `enableYolo` returns the
structured not-installed failure carrying the install hint, with the
filesystem unchanged and no file read or write event; `disableYolo` does
not consult detection at all — its result is the same for every detection
behaviour over the same filesystem. -/
theorem c3_enable_needs_detection_disable_does_not
    (env : YoloEnv) (a : AgentType) :
    (env.found (defOf a).binaries (defOf a).versionFlag = false →
      enableYolo env a =
        ({ type := a, displayName := (defOf a).displayName, success := false
           error := some ("Not installed. Install with: " ++
             (defOf a).installCommand)
           config := none }, env.fs, []))
    ∧ (∀ f f' : List String → String → Bool,
        disableYolo ⟨env.fs, f⟩ a = disableYolo ⟨env.fs, f'⟩ a) := by
  constructor
  · intro h
    cases a <;> simp [enableYolo, h]
  · intro f f'
    cases a <;> rfl

/-- Witness for C3: with nothing detected, enabling codex fails with the
install hint and touches nothing, and disabling codex is independent of the
detection function. -/
theorem c3_enable_needs_detection_disable_does_not_witness :
    enableYolo ⟨fun _ => none, fun _ _ => false⟩ AgentType.codex =
      ({ type := .codex, displayName := (defOf AgentType.codex).displayName
         success := false
         error := some ("Not installed. Install with: " ++
           (defOf AgentType.codex).installCommand)
         config := none }, fun _ => none, [])
    ∧ disableYolo ⟨fun _ => none, fun _ _ => false⟩ AgentType.codex =
        disableYolo ⟨fun _ => none, fun _ _ => true⟩ AgentType.codex := by
  refine ⟨(c3_enable_needs_detection_disable_does_not
    ⟨fun _ => none, fun _ _ => false⟩ AgentType.codex).1 rfl, ?_⟩
  exact (c3_enable_needs_detection_disable_does_not
    ⟨fun _ => none, fun _ _ => true⟩ AgentType.codex).2 (fun _ _ => false)
    (fun _ _ => true)

/-- C4: on a readable nested-JSON config, `disableClaudeCode` removes the
`permissions.defaultMode` key (pruning the then-empty `permissions` object)
exactly when its current value equals the sentinel `"bypassPermissions"`,
writing the updated object back; for any other current value (including an
absent or non-object `permissions`) the filesystem is unchanged, no write
event occurs, and the result reports already disabled. -/
theorem c4_disable_claude_sentinel_only (fs : FsState) (p : String)
    (config : List (String × Json))
    (hread : readJsonConfig fs p = .ok config) :
    (∀ perms, getKey config "permissions" = some (.obj perms) →
      isStrVal (getKey perms "defaultMode") "bypassPermissions" = true →
      disableClaudeCode fs p =
        (.ok "Removed permissions.defaultMode",
          writeJsonConfig fs p
            (if (delKey perms "defaultMode").isEmpty then
              delKey config "permissions"
            else setKey config "permissions" (.obj (delKey perms "defaultMode"))),
          [.readF p, .writeF p]))
    ∧ ((∀ perms, getKey config "permissions" = some (.obj perms) →
          isStrVal (getKey perms "defaultMode") "bypassPermissions" = false) →
        disableClaudeCode fs p =
          (.ok "Already disabled (no bypassPermissions found)", fs,
            [.readF p])) := by
  constructor
  · intro perms hp hs
    simp [disableClaudeCode, hread, hp, hs]
  · intro hno
    simp only [disableClaudeCode, hread]
    cases hk : getKey config "permissions" with
    | none => rfl
    | some v =>
      cases v with
      | obj perms => simp [hno perms hk]
      | null => rfl
      | bool b => rfl
      | num n => rfl
      | str s => rfl
      | arr elems => rfl

/-- Witness for C4: a config whose `permissions` object holds only the
sentinel is pruned entirely; a config with a different `defaultMode` is
reported already disabled with the filesystem untouched. -/
theorem c4_disable_claude_sentinel_only_witness :
    disableClaudeCode
      (fun q => if q = "s.json" then
        some (.jsonC (.val (.obj [("permissions",
          .obj [("defaultMode", .str "bypassPermissions")])]))) else none)
      "s.json" =
      (.ok "Removed permissions.defaultMode",
        writeJsonConfig
          (fun q => if q = "s.json" then
            some (.jsonC (.val (.obj [("permissions",
              .obj [("defaultMode", .str "bypassPermissions")])]))) else none)
          "s.json" [],
        [.readF "s.json", .writeF "s.json"])
    ∧ disableClaudeCode
        (fun q => if q = "s.json" then
          some (.jsonC (.val (.obj [("permissions",
            .obj [("defaultMode", .str "plan")])]))) else none)
        "s.json" =
        (.ok "Already disabled (no bypassPermissions found)",
          (fun q => if q = "s.json" then
            some (.jsonC (.val (.obj [("permissions",
              .obj [("defaultMode", .str "plan")])]))) else none),
          [.readF "s.json"]) := by
  constructor
  · exact (c4_disable_claude_sentinel_only
      (fun q => if q = "s.json" then
        some (.jsonC (.val (.obj [("permissions",
          .obj [("defaultMode", .str "bypassPermissions")])]))) else none)
      "s.json"
      [("permissions", .obj [("defaultMode", .str "bypassPermissions")])]
      rfl).1 [("defaultMode", .str "bypassPermissions")] rfl rfl
  · refine (c4_disable_claude_sentinel_only
      (fun q => if q = "s.json" then
        some (.jsonC (.val (.obj [("permissions",
          .obj [("defaultMode", .str "plan")])]))) else none)
      "s.json"
      [("permissions", .obj [("defaultMode", .str "plan")])] rfl).2 ?_
    intro perms hp
    have hpe : perms = [("defaultMode", Json.str "plan")] := by
      have := hp
      simp [getKey] at this
      exact this.symm
    subst hpe
    rfl

/-- C5: the codex "enabled" predicate holds iff both flat sentinel keys
hold simultaneously; enabling on a non-existent config file creates exactly
the two sentinel keys; and on a readable config with unique keys, disable
removes each key independently iff it currently equals its sentinel
(tolerating only one of the two being set), leaving every other key
untouched and writing only when something changed. -/
theorem c5_codex_two_sentinels (fs : FsState) (p : String)
    (m : List (String × Json)) :
    (isCodexEnabled m = true ↔
      (getTomlString m "approval_policy" = some "never" ∧
        getTomlString m "sandbox_mode" = some "danger-full-access"))
    ∧ (fs p = none →
        enableCodex fs p =
          (.ok "Set approval_policy = \"never\", sandbox_mode = \"danger-full-access\"",
            writeTomlConfig fs p
              [("approval_policy", .str "never"),
                ("sandbox_mode", .str "danger-full-access")],
            [.readF p, .writeF p]))
    ∧ (readTomlConfig fs p = .ok m → (m.map Prod.fst).Nodup →
        (getTomlString m "approval_policy" ≠ some "never" →
          getTomlString m "sandbox_mode" ≠ some "danger-full-access" →
          disableCodex fs p =
            (.ok "Already disabled (no yolo settings found)", fs, [.readF p]))
        ∧ (getTomlString m "approval_policy" = some "never" ∨
            getTomlString m "sandbox_mode" = some "danger-full-access" →
            ∃ m', disableCodex fs p =
                (.ok "Removed approval_policy and sandbox_mode overrides",
                  writeTomlConfig fs p m', [.readF p, .writeF p])
              ∧ getKey m' "approval_policy" =
                  (if getTomlString m "approval_policy" = some "never" then
                    none else getKey m "approval_policy")
              ∧ getKey m' "sandbox_mode" =
                  (if getTomlString m "sandbox_mode" =
                      some "danger-full-access" then
                    none else getKey m "sandbox_mode")
              ∧ ∀ k, k ≠ "approval_policy" → k ≠ "sandbox_mode" →
                  getKey m' k = getKey m k)) := by
  refine ⟨?_, ?_, ?_⟩
  · simp [isCodexEnabled, Bool.and_eq_true, beq_iff_eq]
  · intro h
    simp [enableCodex, readTomlConfig, h, setKey]
  · intro hread hnd
    constructor
    · intro h1 h2
      simp [disableCodex, hread, h1, h2]
    · intro hor
      have hstr : getTomlString (delKey m "approval_policy") "sandbox_mode" =
          getTomlString m "sandbox_mode" := by
        simp [getTomlString,
          getKey_delKey_ne m "approval_policy" "sandbox_mode" (by decide)]
      by_cases c1 : getTomlString m "approval_policy" = some "never" <;>
        by_cases c2 : getTomlString m "sandbox_mode" = some "danger-full-access"
      · refine ⟨delKey (delKey m "approval_policy") "sandbox_mode",
          ?_, ?_, ?_, ?_⟩
        · simp [disableCodex, hread, c1, hstr, c2]
        · rw [if_pos c1,
            getKey_delKey_ne (delKey m "approval_policy") "sandbox_mode"
              "approval_policy" (by decide)]
          exact getKey_delKey_self m "approval_policy" hnd
        · rw [if_pos c2]
          exact getKey_delKey_self (delKey m "approval_policy") "sandbox_mode"
            (delKey_nodup m "approval_policy" hnd)
        · intro k hk1 hk2
          rw [getKey_delKey_ne _ _ _ hk2, getKey_delKey_ne _ _ _ hk1]
      · refine ⟨delKey m "approval_policy", ?_, ?_, ?_, ?_⟩
        · simp [disableCodex, hread, c1, hstr, c2]
        · rw [if_pos c1]
          exact getKey_delKey_self m "approval_policy" hnd
        · rw [if_neg c2]
          exact getKey_delKey_ne m "approval_policy" "sandbox_mode" (by decide)
        · intro k hk1 hk2
          rw [getKey_delKey_ne _ _ _ hk1]
      · refine ⟨delKey m "sandbox_mode", ?_, ?_, ?_, ?_⟩
        · simp [disableCodex, hread, c1, c2]
        · rw [if_neg c1]
          exact getKey_delKey_ne m "sandbox_mode" "approval_policy" (by decide)
        · rw [if_pos c2]
          exact getKey_delKey_self m "sandbox_mode" hnd
        · intro k hk1 hk2
          rw [getKey_delKey_ne _ _ _ hk2]
      · rcases hor with h | h
        · exact absurd h c1
        · exact absurd h c2

/-- Witness for C5: enabling codex on an empty filesystem writes exactly
the two sentinel keys, and the enabled predicate holds on exactly that
table. -/
theorem c5_codex_two_sentinels_witness :
    enableCodex (fun _ => none) "config.toml" =
      (.ok "Set approval_policy = \"never\", sandbox_mode = \"danger-full-access\"",
        writeTomlConfig (fun _ => none) "config.toml"
          [("approval_policy", .str "never"),
            ("sandbox_mode", .str "danger-full-access")],
        [.readF "config.toml", .writeF "config.toml"])
    ∧ isCodexEnabled
        [("approval_policy", Json.str "never"),
          ("sandbox_mode", Json.str "danger-full-access")] = true := by
  refine ⟨(c5_codex_two_sentinels (fun _ => none) "config.toml" []).2.1 rfl, ?_⟩
  exact (c5_codex_two_sentinels (fun _ => none) "config.toml"
    [("approval_policy", Json.str "never"),
      ("sandbox_mode", Json.str "danger-full-access")]).1.mpr ⟨rfl, rfl⟩

/-- C6: across `enableYolo`, `disableYolo` and `checkYoloStatus`, a
returned toggle state with `sessionOnly = true` always has
`enabled = false`; in particular the no-persistent-toggle agents never
report `enabled = true`. -/
theorem c6_session_only_never_enabled (env : YoloEnv) (a : AgentType) :
    (∀ cfg, (enableYolo env a).1.config = some cfg →
      cfg.sessionOnly = true → cfg.enabled = false)
    ∧ (∀ cfg, (disableYolo env a).1.config = some cfg →
      cfg.sessionOnly = true → cfg.enabled = false)
    ∧ (∀ r ∈ checkYoloStatus env, ∀ cfg, r.config = some cfg →
      cfg.sessionOnly = true → cfg.enabled = false) := by
  refine ⟨?_, ?_, ?_⟩
  · intro cfg h hs
    cases a with
    | claudeCode =>
        simp only [enableYolo] at h
        split at h
        · simp at h
        · split at h
          · cases h; simp_all [enabledOnEnable, defOf, persistentToggleOf]
          · simp at h
    | codex =>
        simp only [enableYolo] at h
        split at h
        · simp at h
        · split at h
          · cases h; simp_all [enabledOnEnable, defOf, persistentToggleOf]
          · simp at h
    | copilot =>
        simp only [enableYolo] at h
        split at h
        · simp at h
        · split at h
          · cases h; simp_all [enabledOnEnable, defOf, persistentToggleOf]
          · simp at h
    | amplifier =>
        simp only [enableYolo] at h
        split at h
        · simp at h
        · split at h
          · cases h; simp_all [enabledOnEnable, defOf, persistentToggleOf]
          · simp at h
  · intro cfg h hs
    cases a with
    | claudeCode =>
        simp only [disableYolo] at h
        split at h
        · cases h; simp_all
        · simp at h
    | codex =>
        simp only [disableYolo] at h
        split at h
        · cases h; simp_all
        · simp at h
    | copilot =>
        simp only [disableYolo] at h
        split at h
        · cases h; simp_all
        · simp at h
    | amplifier =>
        simp only [disableYolo] at h
        split at h
        · cases h; simp_all
        · simp at h
  · intro r hr cfg h hs
    simp only [checkYoloStatus, AGENT_DEFINITIONS, List.map_cons,
      List.map_nil, List.mem_cons, List.not_mem_nil, or_false] at hr
    rcases hr with hr | hr | hr | hr <;> subst hr <;>
      simp only [statusFor] at h <;> split at h <;>
      (cases h; simp_all [defOf, persistentToggleOf])

theorem probeCandidates_found (denv : DetectEnv) (flag : String)
    (cs : List String) (r : BinProbe)
    (h : probeCandidates denv flag cs = some r) : r.found = true := by
  induction cs with
  | nil => simp [probeCandidates] at h
  | cons c rest ih =>
    simp only [probeCandidates] at h
    cases hx : execResolves (denv.exec c flag) with
    | some pr =>
        obtain ⟨o, e⟩ := pr
        rw [hx] at h
        simp only [Option.some.injEq] at h
        rw [← h]
    | none =>
        rw [hx] at h
        exact ih h

theorem probeCandidates_isSome (denv : DetectEnv) (flag : String)
    (cs : List String) :
    (probeCandidates denv flag cs).isSome = true ↔
      ∃ c ∈ cs, (execResolves (denv.exec c flag)).isSome = true := by
  induction cs with
  | nil => simp [probeCandidates]
  | cons c rest ih =>
    simp only [probeCandidates, List.mem_cons]
    cases hx : execResolves (denv.exec c flag) with
    | some pr =>
        obtain ⟨o, e⟩ := pr
        constructor
        · intro _
          exact ⟨c, Or.inl rfl, by simp [hx]⟩
        · intro _
          simp
    | none =>
        rw [ih]
        constructor
        · rintro ⟨c', hc', hres⟩
          exact ⟨c', Or.inr hc', hres⟩
        · rintro ⟨c', hc' | hc', hres⟩
          · subst hc'
            rw [hx] at hres
            simp at hres
          · exact ⟨c', hc', hres⟩

/-- C2 counterexample: the claim is false on the code — a candidate whose
execution writes `mybin 1.2.3` to stdout but exits with status 1 is not
treated as a success; `detectBinary` reports `found = false` because
Node's `execFile` promise rejects on a non-zero exit code and the `catch`
moves on to the next candidate. -/
theorem c2_nonzero_exit_counterexample :
    nonZeroExitEnv.exec "mybin" "--version" =
      ExecOutcome.exited 1 "mybin 1.2.3" ""
    ∧ detectBinary nonZeroExitEnv ["mybin"] "--version" =
        { found := false, path := none, version := none } := by
  exact ⟨rfl, rfl⟩

/-- C2 (amended): a probe succeeds (`found = true`) if and only if some
candidate of some binary variant resolves — i.e. its execution completes
with exit code 0 (without a spawn failure or timeout); every other outcome,
including a non-zero exit that produced output, fails that candidate and
the next one is tried. -/
theorem c2_success_iff_some_candidate_resolves (denv : DetectEnv)
    (binaries : List String) (flag : String) :
    (detectBinary denv binaries flag).found = true ↔
      ∃ b ∈ binaries, ∃ c ∈ denv.candidatesOf b,
        (execResolves (denv.exec c flag)).isSome = true := by
  induction binaries with
  | nil => simp [detectBinary]
  | cons b rest ih =>
    simp only [detectBinary, List.mem_cons]
    cases hp : probeCandidates denv flag (denv.candidatesOf b) with
    | some r =>
        have hf := probeCandidates_found denv flag _ r hp
        have hs : (probeCandidates denv flag (denv.candidatesOf b)).isSome
            = true := by simp [hp]
        rw [probeCandidates_isSome] at hs
        obtain ⟨c, hc, hres⟩ := hs
        simp only [hf, true_iff]
        exact ⟨b, Or.inl rfl, c, hc, hres⟩
    | none =>
        have hs : ¬ (probeCandidates denv flag (denv.candidatesOf b)).isSome
            = true := by simp [hp]
        rw [probeCandidates_isSome] at hs
        rw [ih]
        constructor
        · rintro ⟨b', hb', hw⟩
          exact ⟨b', Or.inr hb', hw⟩
        · rintro ⟨b', hb' | hb', hw⟩
          · subst hb'
            exact absurd hw hs
          · exact ⟨b', hb', hw⟩

theorem mem_insertUnique (l : List String) (x y : String) :
    x ∈ insertUnique l y ↔ x ∈ l ∨ x = y := by
  simp only [insertUnique]
  split
  · next hy =>
      constructor
      · exact Or.inl
      · rintro (h | rfl)
        · exact h
        · exact hy
  · simp [List.mem_append]

theorem insertUnique_ne_nil (l : List String) (y : String) (h : l ≠ []) :
    insertUnique l y ≠ [] := by
  simp only [insertUnique]
  split
  · exact h
  · simp

theorem head?_insertUnique (l : List String) (y : String) (h : l ≠ []) :
    (insertUnique l y).head? = l.head? := by
  simp only [insertUnique]
  split
  · rfl
  · cases l with
    | nil => exact absurd rfl h
    | cons a t => rfl

theorem insertUnique_nodup (l : List String) (y : String) (h : l.Nodup) :
    (insertUnique l y).Nodup := by
  simp only [insertUnique]
  split
  · exact h
  · next hy => simp [List.nodup_append, h, hy]

theorem foldl_insertUnique_ne_nil (l acc : List String) (h : acc ≠ []) :
    l.foldl insertUnique acc ≠ [] := by
  induction l generalizing acc with
  | nil => exact h
  | cons y t ih =>
      rw [List.foldl_cons]
      exact ih _ (insertUnique_ne_nil acc y h)

theorem foldl_insertUnique_head? (l acc : List String) (h : acc ≠ []) :
    (l.foldl insertUnique acc).head? = acc.head? := by
  induction l generalizing acc with
  | nil => rfl
  | cons y t ih =>
      rw [List.foldl_cons, ih _ (insertUnique_ne_nil acc y h),
        head?_insertUnique acc y h]

theorem foldl_insertUnique_nodup (l acc : List String) (h : acc.Nodup) :
    (l.foldl insertUnique acc).Nodup := by
  induction l generalizing acc with
  | nil => exact h
  | cons y t ih =>
      rw [List.foldl_cons]
      exact ih _ (insertUnique_nodup acc y h)

theorem mem_foldl_insertUnique (l acc : List String) (x : String) :
    x ∈ l.foldl insertUnique acc ↔ x ∈ acc ∨ x ∈ l := by
  induction l generalizing acc with
  | nil => simp
  | cons y t ih =>
      rw [List.foldl_cons, ih, mem_insertUnique]
      simp only [List.mem_cons]
      tauto

theorem filteredFold_ne_nil (p : String → Bool) (f : String → String)
    (l acc : List String) (h : acc ≠ []) :
    l.foldl (fun acc e => if p e then insertUnique acc (f e) else acc) acc
      ≠ [] := by
  induction l generalizing acc with
  | nil => exact h
  | cons y t ih =>
      rw [List.foldl_cons]
      by_cases hy : p y
      · rw [if_pos hy]
        exact ih _ (insertUnique_ne_nil acc (f y) h)
      · rw [if_neg hy]
        exact ih _ h

theorem filteredFold_head? (p : String → Bool) (f : String → String)
    (l acc : List String) (h : acc ≠ []) :
    (l.foldl (fun acc e => if p e then insertUnique acc (f e) else acc)
      acc).head? = acc.head? := by
  induction l generalizing acc with
  | nil => rfl
  | cons y t ih =>
      rw [List.foldl_cons]
      by_cases hy : p y
      · rw [if_pos hy, ih _ (insertUnique_ne_nil acc (f y) h),
          head?_insertUnique acc (f y) h]
      · rw [if_neg hy, ih _ h]

theorem filteredFold_nodup (p : String → Bool) (f : String → String)
    (l acc : List String) (h : acc.Nodup) :
    (l.foldl (fun acc e => if p e then insertUnique acc (f e) else acc)
      acc).Nodup := by
  induction l generalizing acc with
  | nil => exact h
  | cons y t ih =>
      rw [List.foldl_cons]
      by_cases hy : p y
      · rw [if_pos hy]
        exact ih _ (insertUnique_nodup acc (f y) h)
      · rw [if_neg hy]
        exact ih _ h

theorem mem_filteredFold (p : String → Bool) (f : String → String)
    (l acc : List String) (x : String) :
    x ∈ l.foldl (fun acc e => if p e then insertUnique acc (f e) else acc)
        acc ↔
      x ∈ acc ∨ ∃ e ∈ l, p e = true ∧ x = f e := by
  induction l generalizing acc with
  | nil => simp
  | cons y t ih =>
      rw [List.foldl_cons]
      by_cases hy : p y
      · rw [if_pos hy, ih, mem_insertUnique]
        constructor
        · rintro ((h | rfl) | ⟨e, he, hp, rfl⟩)
          · exact Or.inl h
          · exact Or.inr ⟨y, List.mem_cons_self y t, hy, rfl⟩
          · exact Or.inr ⟨e, List.mem_cons_of_mem y he, hp, rfl⟩
        · rintro (h | ⟨e, he, hp, rfl⟩)
          · exact Or.inl (Or.inl h)
          · rcases List.mem_cons.mp he with rfl | he'
            · exact Or.inl (Or.inr rfl)
            · exact Or.inr ⟨e, he', hp, rfl⟩
      · rw [if_neg hy, ih]
        constructor
        · rintro (h | ⟨e, he, hp, rfl⟩)
          · exact Or.inl h
          · exact Or.inr ⟨e, List.mem_cons_of_mem y he, hp, rfl⟩
        · rintro (h | ⟨e, he, hp, rfl⟩)
          · exact Or.inl h
          · rcases List.mem_cons.mp he with rfl | he'
            · exact absurd hp (by simp [hy])
            · exact Or.inr ⟨e, he', hp, rfl⟩

/-- C9 counterexample: the claim is false on the code — the nvm filter only
requires the entry to start with the letter `v`, so the directory entry
`vend`, which does not match the `v<digits...>` pattern, still contributes
a candidate path. -/
theorem c9_v_prefix_counterexample :
    specVersionPattern "vend" = false
    ∧ startsWithV "vend" = true
    ∧ nvmCandidate ⟨false, "/home/u", some ["vend"]⟩ "codex" "vend" ∈
        getCandidatePaths ⟨false, "/home/u", some ["vend"]⟩ "codex" := by
  refine ⟨by decide, by decide, ?_⟩
  show nvmCandidate ⟨false, "/home/u", some ["vend"]⟩ "codex" "vend" ∈
    List.foldl (fun acc entry =>
      if startsWithV entry then
        insertUnique acc (pathJoin (pathJoin (pathJoin (pathJoin (pathJoin
          (pathJoin "/home/u" ".nvm") "versions") "node") entry) "bin")
          "codex")
      else acc)
      (List.foldl insertUnique ["codex"]
        ["/usr/local/bin/" ++ "codex", "/opt/homebrew/bin/" ++ "codex",
          "/usr/bin/" ++ "codex",
          pathJoin (pathJoin (pathJoin "/home/u" ".local") "bin") "codex"])
      ["vend"]
  rw [mem_filteredFold]
  exact Or.inr ⟨"vend", by simp, by decide, rfl⟩

/-- C9 (amended): `getCandidatePaths` returns a de-duplicated sequence
whose first element is the bare name; on non-Windows platforms the entries
taken from the nvm directory are exactly those whose name starts with the
letter `v` (all other entries are silently skipped), and an absent nvm
directory yields no candidates beyond the bare name and the four fixed
prefixes. -/
theorem c9_candidate_paths_shape (penv : PathsEnv) (bn : String) :
    (getCandidatePaths penv bn).head? = some bn
    ∧ (getCandidatePaths penv bn).Nodup
    ∧ (penv.platformWin32 = false → penv.nvmEntries = none →
        ∀ x ∈ getCandidatePaths penv bn,
          x = bn ∨ x ∈ ["/usr/local/bin/" ++ bn, "/opt/homebrew/bin/" ++ bn,
            "/usr/bin/" ++ bn,
            pathJoin (pathJoin (pathJoin penv.homeDir ".local") "bin") bn])
    ∧ (∀ es, penv.platformWin32 = false → penv.nvmEntries = some es →
        (∀ e ∈ es, startsWithV e = true →
          nvmCandidate penv bn e ∈ getCandidatePaths penv bn)
        ∧ ∀ x ∈ getCandidatePaths penv bn,
            x = bn ∨
              x ∈ ["/usr/local/bin/" ++ bn, "/opt/homebrew/bin/" ++ bn,
                "/usr/bin/" ++ bn,
                pathJoin (pathJoin (pathJoin penv.homeDir ".local") "bin") bn]
              ∨ ∃ e ∈ es, startsWithV e = true ∧
                  x = nvmCandidate penv bn e) := by
  refine ⟨?_, ?_, ?_, ?_⟩
  · simp only [getCandidatePaths]
    split
    · rfl
    · cases hn : penv.nvmEntries with
      | none => exact foldl_insertUnique_head? _ [bn] (by simp)
      | some es =>
          exact (filteredFold_head? _ _ es _
            (foldl_insertUnique_ne_nil _ [bn] (by simp))).trans
            (foldl_insertUnique_head? _ [bn] (by simp))
  · simp only [getCandidatePaths]
    split
    · simp
    · cases hn : penv.nvmEntries with
      | none => exact foldl_insertUnique_nodup _ [bn] (by simp)
      | some es =>
          exact filteredFold_nodup _ _ es _
            (foldl_insertUnique_nodup _ [bn] (by simp))
  · intro hw hn x hx
    simp only [getCandidatePaths, hw, hn] at hx
    simp only [Bool.false_eq_true, if_false] at hx
    rw [mem_foldl_insertUnique] at hx
    simpa using hx
  · intro es hw hn
    constructor
    · intro e he hv
      simp only [getCandidatePaths, hw, hn]
      simp only [Bool.false_eq_true, if_false]
      rw [mem_filteredFold]
      exact Or.inr ⟨e, he, hv, rfl⟩
    · intro x hx
      simp only [getCandidatePaths, hw, hn] at hx
      simp only [Bool.false_eq_true, if_false] at hx
      rw [mem_filteredFold] at hx
      rcases hx with hx | ⟨e, he, hp, rfl⟩
      · rw [mem_foldl_insertUnique] at hx
        simp only [List.mem_singleton] at hx
        rcases hx with hx | hx
        · exact Or.inl hx
        · exact Or.inr (Or.inl hx)
      · exact Or.inr (Or.inr ⟨e, he, hp, rfl⟩)

/-- Witness for C9 (amended): on a concrete environment the candidate list
starts with the bare name, and a `v`-prefixed nvm entry contributes its
candidate. -/
theorem c9_candidate_paths_shape_witness :
    (getCandidatePaths ⟨false, "/home/u", some ["v20.1"]⟩ "codex").head? =
      some "codex"
    ∧ nvmCandidate ⟨false, "/home/u", some ["v20.1"]⟩ "codex" "v20.1" ∈
        getCandidatePaths ⟨false, "/home/u", some ["v20.1"]⟩ "codex" := by
  refine ⟨(c9_candidate_paths_shape ⟨false, "/home/u", some ["v20.1"]⟩
    "codex").1, ?_⟩
  exact ((c9_candidate_paths_shape ⟨false, "/home/u", some ["v20.1"]⟩
    "codex").2.2.2 ["v20.1"] rfl rfl).1 "v20.1" (by simp) (by decide)

theorem replaceAllCh_append (c : Char) (r : Chars) (a b : Chars) :
    replaceAllCh c r (a ++ b) = replaceAllCh c r a ++ replaceAllCh c r b := by
  induction a with
  | nil => rfl
  | cons x xs ih => simp [replaceAllCh, ih]

theorem escape_cons (c : Char) (s : Chars) :
    escapeForDoubleQuotes (c :: s) = escChar c ++ escapeForDoubleQuotes s := by
  have h : (c :: s) = [c] ++ s := rfl
  rw [h]
  simp only [escapeForDoubleQuotes, replaceAllCh_append]
  congr 1
  rcases eq_or_ne c bslash with h1 | h1
  · subst h1; decide
  rcases eq_or_ne c '\n' with h2 | h2
  · subst h2; decide
  rcases eq_or_ne c '\r' with h3 | h3
  · subst h3; decide
  rcases eq_or_ne c '\t' with h4 | h4
  · subst h4; decide
  rcases eq_or_ne c dquote with h5 | h5
  · subst h5; decide
  rcases eq_or_ne c '$' with h6 | h6
  · subst h6; decide
  rcases eq_or_ne c btick with h7 | h7
  · subst h7; decide
  simp [replaceAllCh, escChar, h1, h2, h3, h4, h5, h6, h7]

theorem unescape_escChar (c : Char) (t : Chars) :
    unescapeDoubleQuotedValue (escChar c ++ t) =
      c :: unescapeDoubleQuotedValue t := by
  rcases eq_or_ne c bslash with h1 | h1
  · subst h1
    simp [escChar, unescapeDoubleQuotedValue, decodeEsc]
    decide
  rcases eq_or_ne c '\n' with h2 | h2
  · subst h2
    simp [escChar, unescapeDoubleQuotedValue, decodeEsc]
  rcases eq_or_ne c '\r' with h3 | h3
  · subst h3
    simp [escChar, unescapeDoubleQuotedValue, decodeEsc]
  rcases eq_or_ne c '\t' with h4 | h4
  · subst h4
    simp [escChar, unescapeDoubleQuotedValue, decodeEsc]
  rcases eq_or_ne c dquote with h5 | h5
  · subst h5
    simp [escChar, unescapeDoubleQuotedValue, decodeEsc]
    decide
  rcases eq_or_ne c '$' with h6 | h6
  · subst h6
    simp [escChar, unescapeDoubleQuotedValue, decodeEsc]
  rcases eq_or_ne c btick with h7 | h7
  · subst h7
    simp [escChar, unescapeDoubleQuotedValue, decodeEsc]
    decide
  cases t with
  | nil =>
      simp [escChar, unescapeDoubleQuotedValue, h1, h2, h3, h4, h5, h6, h7]
  | cons x xs =>
      simp [escChar, unescapeDoubleQuotedValue, h1, h2, h3, h4, h5, h6, h7]

theorem unescape_escape (s : Chars) :
    unescapeDoubleQuotedValue (escapeForDoubleQuotes s) = s := by
  induction s with
  | nil => rfl
  | cons c rest ih => rw [escape_cons, unescape_escChar, ih]

theorem newline_not_mem_escChar (c : Char) : '\n' ∉ escChar c := by
  rcases eq_or_ne c bslash with h1 | h1
  · subst h1; decide
  rcases eq_or_ne c '\n' with h2 | h2
  · subst h2; decide
  rcases eq_or_ne c '\r' with h3 | h3
  · subst h3; decide
  rcases eq_or_ne c '\t' with h4 | h4
  · subst h4; decide
  rcases eq_or_ne c dquote with h5 | h5
  · subst h5; decide
  rcases eq_or_ne c '$' with h6 | h6
  · subst h6; decide
  rcases eq_or_ne c btick with h7 | h7
  · subst h7; decide
  simp only [escChar, if_neg h1, if_neg h2, if_neg h3, if_neg h4, if_neg h5,
    if_neg h6, if_neg h7, List.mem_singleton]
  exact fun hh => h2 hh.symm

theorem newline_not_mem_escape (s : Chars) :
    '\n' ∉ escapeForDoubleQuotes s := by
  induction s with
  | nil => simp [escapeForDoubleQuotes, replaceAllCh]
  | cons c rest ih =>
      rw [escape_cons]
      simp only [List.mem_append]
      rintro (h | h)
      · exact newline_not_mem_escChar c h
      · exact ih h

theorem validKey_chars (k : Chars) (hk : validKeyName k = true) :
    ∀ c ∈ k, isKeyChar c = true := by
  cases k with
  | nil => simp [validKeyName] at hk
  | cons c rest =>
      simp only [validKeyName, Bool.and_eq_true, List.all_eq_true] at hk
      intro x hx
      rcases List.mem_cons.mp hx with rfl | hx'
      · simp [isKeyChar, hk.1]
      · exact hk.2 x hx'

theorem keyChar_not_ws (c : Char) (h : isKeyChar c = true) : isWs c = false := by
  cases hw : isWs c
  · rfl
  · exfalso
    have hc := hw
    simp only [isWs, Char.isWhitespace, Bool.or_eq_true,
      decide_eq_true_eq] at hc
    rcases hc with ((rfl | rfl) | rfl) | rfl <;>
      simp [isKeyChar, isKeyStart] at h

theorem newline_not_mem_validKey (k : Chars) (hk : validKeyName k = true) :
    '\n' ∉ k := by
  intro hmem
  have := validKey_chars k hk '\n' hmem
  simp [isKeyChar, isKeyStart] at this

theorem splitNl_no_newline (l : Chars) (h : '\n' ∉ l) : splitNl l = [l] := by
  induction l with
  | nil => rfl
  | cons c rest ih =>
      simp only [List.mem_cons, not_or] at h
      simp only [splitNl]
      rw [if_neg (fun hc : c = '\n' => h.1 hc.symm), ih h.2]

theorem splitNl_append (l r : Chars) (h : '\n' ∉ l) :
    splitNl (l ++ '\n' :: r) = l :: splitNl r := by
  induction l with
  | nil => simp [splitNl]
  | cons c rest ih =>
      simp only [List.mem_cons, not_or] at h
      simp only [List.cons_append, splitNl]
      rw [if_neg (fun hc : c = '\n' => h.1 hc.symm)]
      simp only [List.append_eq]
      rw [ih h.2]

theorem splitNl_intercalateNl (ls : List Chars) (h : ∀ l ∈ ls, '\n' ∉ l)
    (hne : ls ≠ []) : splitNl (intercalateNl ls) = ls := by
  induction ls with
  | nil => exact absurd rfl hne
  | cons l rest ih =>
      cases rest with
      | nil => exact splitNl_no_newline l (h l (by simp))
      | cons l2 rest2 =>
          rw [show intercalateNl (l :: l2 :: rest2) =
            l ++ '\n' :: intercalateNl (l2 :: rest2) from rfl]
          rw [splitNl_append _ _ (h l (by simp))]
          rw [ih (fun x hx => h x (List.mem_cons_of_mem _ hx)) (by simp)]

theorem dropWhile_cons_false (p : Char → Bool) (c : Char) (t : Chars)
    (h : p c = false) : (c :: t).dropWhile p = c :: t := by
  simp [List.dropWhile_cons, h]

theorem takeWhile_append_stop (p : Char → Bool) (a : Chars) (y : Char)
    (b : Chars) (ha : ∀ x ∈ a, p x = true) (hy : p y = false) :
    (a ++ y :: b).takeWhile p = a := by
  induction a with
  | nil => simp [List.takeWhile_cons, hy]
  | cons x xs ih =>
      simp only [List.cons_append, List.takeWhile_cons,
        ha x (List.mem_cons_self x xs)]
      simp only [if_true]
      rw [ih (fun z hz => ha z (List.mem_cons_of_mem x hz))]

theorem dropWhile_append_stop (p : Char → Bool) (a : Chars) (y : Char)
    (b : Chars) (ha : ∀ x ∈ a, p x = true) (hy : p y = false) :
    (a ++ y :: b).dropWhile p = y :: b := by
  induction a with
  | nil => simp [List.dropWhile_cons, hy]
  | cons x xs ih =>
      simp only [List.cons_append, List.dropWhile_cons,
        ha x (List.mem_cons_self x xs)]
      simp only [if_true]
      exact ih (fun z hz => ha z (List.mem_cons_of_mem x hz))

theorem trimL_eq_self (l : Chars) (h1 : headIsWs l = false)
    (h2 : headIsWs l.reverse = false) : trimL l = l := by
  unfold trimL
  have e1 : l.dropWhile isWs = l := by
    cases l with
    | nil => rfl
    | cons c t =>
        simp only [headIsWs] at h1
        exact dropWhile_cons_false isWs c t h1
  rw [e1]
  have e2 : l.reverse.dropWhile isWs = l.reverse := by
    cases hr : l.reverse with
    | nil => rfl
    | cons c t =>
        rw [hr] at h2
        simp only [headIsWs] at h2
        exact dropWhile_cons_false isWs c t h2
  rw [e2, List.reverse_reverse]

theorem matchKeyEq_key_eq (k r : Chars) (hk : validKeyName k = true) :
    matchKeyEq (k ++ '=' :: r) = some (k, r) := by
  cases k with
  | nil => simp [validKeyName] at hk
  | cons c rest =>
      have hchars := validKey_chars _ hk
      simp only [validKeyName, Bool.and_eq_true] at hk
      have hrest : ∀ x ∈ rest, isKeyChar x = true :=
        fun x hx => hchars x (List.mem_cons_of_mem c hx)
      simp only [List.cons_append, matchKeyEq, hk.1, if_true]
      rw [takeWhile_append_stop isKeyChar rest '=' r hrest (by decide)]
      rw [dropWhile_append_stop isKeyChar rest '=' r hrest (by decide)]
      rw [dropWhile_cons_false isWs '=' r (by decide)]
      rfl

theorem quoteEnvValue_shape (v : Chars) :
    quoteEnvValue v = (dquote :: escapeForDoubleQuotes v) ++ [dquote] := by
  simp [quoteEnvValue]

theorem parseValuePart_quote (v : Chars) :
    parseValuePart (quoteEnvValue v) = v := by
  have hhead : (quoteEnvValue v).head? = some dquote := rfl
  have hlast : (quoteEnvValue v).getLast? = some dquote := by
    rw [quoteEnvValue_shape]
    exact List.getLast?_concat _
  simp only [parseValuePart, hhead, hlast, beq_self_eq_true, Bool.and_self,
    if_true]
  have hslice : sliceInner (quoteEnvValue v) = escapeForDoubleQuotes v := by
    simp only [quoteEnvValue, sliceInner, List.drop_succ_cons, List.drop_zero]
    exact List.dropLast_concat
  rw [hslice, unescape_escape]

theorem headIsWs_quoteEnvValue (v : Chars) :
    headIsWs (quoteEnvValue v) = false := by
  show isWs dquote = false
  decide

theorem headIsWs_reverse_quoteEnvValue (v : Chars) :
    headIsWs (quoteEnvValue v).reverse = false := by
  rw [quoteEnvValue_shape, List.reverse_append]
  show isWs dquote = false
  decide

theorem dropWhile_quoteEnvValue (v : Chars) :
    (quoteEnvValue v).dropWhile isWs = quoteEnvValue v := by
  simp only [quoteEnvValue]
  exact dropWhile_cons_false isWs dquote _ (by decide)

theorem parseEnvLine_exportLine (k v : Chars) (hk : validKeyName k = true) :
    parseEnvLine (exportLine k v) = some (k, v) := by
  obtain ⟨c, rest, rfl⟩ : ∃ c rest, k = c :: rest := by
    cases k with
    | nil => simp [validKeyName] at hk
    | cons c rest => exact ⟨c, rest, rfl⟩
  have hkc : isKeyStart c = true := by
    simp only [validKeyName, Bool.and_eq_true] at hk
    exact hk.1
  have hcws : isWs c = false := keyChar_not_ws c (by simp [isKeyChar, hkc])
  have hline : exportLine (c :: rest) v =
      'e' :: 'x' :: 'p' :: 'o' :: 'r' :: 't' :: ' ' ::
        ((c :: rest) ++ '=' :: quoteEnvValue v) := rfl
  rw [hline]
  have hstrip : exportStrip ('e' :: 'x' :: 'p' :: 'o' :: 'r' :: 't' :: ' ' ::
      ((c :: rest) ++ '=' :: quoteEnvValue v)) =
      (c :: rest) ++ '=' :: quoteEnvValue v := by
    simp only [exportStrip]
    rw [if_pos (by decide)]
    rw [List.dropWhile_cons]
    rw [if_pos (by decide)]
    exact dropWhile_cons_false isWs c _ hcws
  simp only [parseEnvLine, hstrip]
  simp only [parseKeyValue, matchKeyEq_key_eq (c :: rest) _ hk]
  rw [dropWhile_quoteEnvValue, trimL_eq_self _ (headIsWs_quoteEnvValue v)
    (headIsWs_reverse_quoteEnvValue v), parseValuePart_quote]

theorem newline_not_mem_exportLine (k v : Chars) (hk : validKeyName k = true) :
    '\n' ∉ exportLine k v := by
  intro hmem
  rcases List.mem_append.mp hmem with h | h
  · rcases List.mem_append.mp h with h | h
    · exact absurd h (by decide)
    · exact newline_not_mem_validKey k hk h
  · rcases List.mem_cons.mp h with h | h
    · exact absurd h (by decide)
    · rcases List.mem_cons.mp h with h | h
      · exact absurd h (by decide)
      · rcases List.mem_append.mp h with h | h
        · exact newline_not_mem_escape v h
        · exact absurd h (by decide)

theorem headIsWs_exportLine (k v : Chars) :
    headIsWs (exportLine k v) = false := by
  show isWs 'e' = false
  decide

theorem headIsWs_reverse_exportLine (k v : Chars) :
    headIsWs (exportLine k v).reverse = false := by
  have hsh : exportLine k v =
      ("export ".data ++ k ++ '=' :: dquote :: escapeForDoubleQuotes v)
        ++ [dquote] := by
    simp [exportLine, quoteEnvValue]
  rw [hsh, List.reverse_append]
  show isWs dquote = false
  decide

theorem readSecretsLine_exportLine (m : EnvMap) (k v : Chars)
    (hk : validKeyName k = true) :
    readSecretsLine m (exportLine k v) = setMap m k v := by
  have ht : trimL (exportLine k v) = exportLine k v :=
    trimL_eq_self _ (headIsWs_exportLine k v) (headIsWs_reverse_exportLine k v)
  have he : (exportLine k v).isEmpty = false := rfl
  have hh : ((exportLine k v).head? == some '#') = false := rfl
  simp only [readSecretsLine, ht, he, hh, Bool.or_self, Bool.false_eq_true,
    if_false]
  simp only [parseEnvLine_exportLine k v hk]

theorem known_fold_eq (secrets : List (Chars × Chars))
    (l : List ApiKeyDefinition) (acc : List Chars) :
    l.foldl (fun acc keyDef =>
      if keyDef.envVar = amplifierVar then acc
      else
        match mapGet secrets keyDef.envVar with
        | some v =>
            if v.isEmpty then acc else acc ++ [exportLine keyDef.envVar v]
        | none => acc) acc
      = acc ++ (l.filterMap (knownPair secrets)).map
          (fun e => exportLine e.1 e.2) := by
  induction l generalizing acc with
  | nil => simp
  | cons d ds ih =>
      simp only [List.foldl_cons, List.filterMap_cons]
      by_cases h1 : d.envVar = amplifierVar
      · rw [if_pos h1, ih]
        simp [knownPair, h1]
      · rw [if_neg h1]
        cases hm : mapGet secrets d.envVar with
        | none =>
            rw [ih]
            simp [knownPair, h1, hm]
        | some v =>
            cases h2 : v.isEmpty with
            | true =>
                simp only [h2, if_true]
                rw [ih]
                simp [knownPair, h1, hm, h2]
            | false =>
                simp only [h2, Bool.false_eq_true, if_false]
                rw [ih]
                simp [knownPair, h1, hm, h2]

theorem extra_fold_eq (entries : List (Chars × Chars)) (acc : List Chars) :
    entries.foldl (fun acc kv =>
      if API_KEYS.any (fun d => d.envVar == kv.1) then acc
      else acc ++ [exportLine kv.1 kv.2]) acc
      = acc ++ (entries.filterMap extraPair).map
          (fun e => exportLine e.1 e.2) := by
  induction entries generalizing acc with
  | nil => simp
  | cons kv kvs ih =>
      simp only [List.foldl_cons, List.filterMap_cons]
      by_cases h1 : API_KEYS.any (fun d => d.envVar == kv.1) = true
      · rw [if_pos h1, ih]
        simp [extraPair, h1]
      · rw [if_neg h1, ih]
        simp [extraPair, h1]

theorem writeSecretsLines_eq (secrets : List (Chars × Chars)) :
    writeSecretsLines secrets =
      headerLines ++ ((bodyPairs secrets).map (fun e => exportLine e.1 e.2))
        ++ [[]] := by
  simp only [writeSecretsLines, known_fold_eq, extra_fold_eq, bodyPairs,
    List.map_append, List.nil_append]
  simp [List.append_assoc]

theorem assocLast_eq_none (pairs : List (Chars × Chars)) (k : Chars)
    (h : ∀ e ∈ pairs, e.1 ≠ k) : assocLast pairs k = none := by
  induction pairs with
  | nil => rfl
  | cons e es ih =>
      simp only [assocLast]
      rw [ih (fun x hx => h x (List.mem_cons_of_mem e hx))]
      rw [if_neg (h e (List.mem_cons_self e es))]

theorem assocLast_mem (pairs : List (Chars × Chars)) (k w : Chars)
    (h : assocLast pairs k = some w) : (k, w) ∈ pairs := by
  induction pairs with
  | nil => simp [assocLast] at h
  | cons e es ih =>
      simp only [assocLast] at h
      cases hal : assocLast es k with
      | some u =>
          rw [hal] at h
          simp only [Option.some.injEq] at h
          subst h
          exact List.mem_cons_of_mem e (ih hal)
      | none =>
          rw [hal] at h
          by_cases hek : e.1 = k
          · rw [if_pos hek] at h
            simp only [Option.some.injEq] at h
            have : e = (k, w) := by
              rw [← hek, ← h]
            rw [← this]
            exact List.mem_cons_self e es
          · rw [if_neg hek] at h
            simp at h

theorem assocLast_eq_some (pairs : List (Chars × Chars)) (k v : Chars)
    (hmem : (k, v) ∈ pairs)
    (huni : ∀ e ∈ pairs, e.1 = k → e.2 = v) :
    assocLast pairs k = some v := by
  induction pairs with
  | nil => simp at hmem
  | cons e es ih =>
      simp only [assocLast]
      cases hal : assocLast es k with
      | some w =>
          have hw : (k, w) ∈ es := assocLast_mem es k w hal
          have hwv : w = v := huni (k, w) (List.mem_cons_of_mem e hw) rfl
          rw [hwv]
      | none =>
          rcases List.mem_cons.mp hmem with heq | hmem'
          · rw [if_pos (by rw [← heq]), ← heq]
          · exfalso
            have hsome := ih hmem'
              (fun x hx hxk => huni x (List.mem_cons_of_mem e hx) hxk)
            rw [hal] at hsome
            cases hsome

theorem readLines_pairs (pairs : List (Chars × Chars)) (m0 : EnvMap)
    (k : Chars) (hv : ∀ e ∈ pairs, validKeyName e.1 = true) :
    (pairs.map (fun e => exportLine e.1 e.2)).foldl readSecretsLine m0 k =
      match assocLast pairs k with
      | some v => some v
      | none => m0 k := by
  induction pairs generalizing m0 with
  | nil => simp [assocLast]
  | cons e es ih =>
      simp only [List.map_cons, List.foldl_cons]
      rw [readSecretsLine_exportLine m0 e.1 e.2
        (hv e (List.mem_cons_self e es))]
      rw [ih _ (fun x hx => hv x (List.mem_cons_of_mem e hx))]
      simp only [assocLast]
      cases assocLast es k with
      | some v => rfl
      | none =>
          simp only [setMap]
          by_cases hek : e.1 = k
          · subst hek
            simp
          · rw [if_neg (fun hh : k = e.1 => hek hh.symm), if_neg hek]

theorem knownPair_shape (secrets : List (Chars × Chars))
    (d : ApiKeyDefinition) (e : Chars × Chars)
    (h : knownPair secrets d = some e) :
    e.1 = d.envVar ∧ mapGet secrets d.envVar = some e.2 ∧
      e.2.isEmpty = false ∧ d.envVar ≠ amplifierVar := by
  simp only [knownPair] at h
  by_cases h1 : d.envVar = amplifierVar
  · rw [if_pos h1] at h
    cases h
  · rw [if_neg h1] at h
    cases hm : mapGet secrets d.envVar with
    | none =>
        rw [hm] at h
        cases h
    | some v =>
        rw [hm] at h
        dsimp only at h
        cases h2 : v.isEmpty with
        | true =>
            rw [h2] at h
            simp at h
        | false =>
            rw [h2] at h
            simp only [Bool.false_eq_true, if_false, Option.some.injEq] at h
            subst h
            exact ⟨rfl, hm ▸ rfl, h2, h1⟩

theorem extraPair_shape (kv e : Chars × Chars) (h : extraPair kv = some e) :
    e = kv ∧ API_KEYS.any (fun d => d.envVar == kv.1) = false := by
  simp only [extraPair] at h
  by_cases h1 : API_KEYS.any (fun d => d.envVar == kv.1) = true
  · rw [if_pos h1] at h
    cases h
  · rw [if_neg h1] at h
    simp only [Option.some.injEq] at h
    exact ⟨h.symm, Bool.not_eq_true _ ▸ (by simpa using h1)⟩

theorem mapGet_eq_some_of_mem (m : List (Chars × Chars)) (k v : Chars)
    (hnd : (m.map Prod.fst).Nodup) (hmem : (k, v) ∈ m) :
    mapGet m k = some v := by
  induction m with
  | nil => simp at hmem
  | cons e es ih =>
      simp only [List.map_cons, List.nodup_cons] at hnd
      simp only [mapGet]
      rcases List.mem_cons.mp hmem with heq | hmem'
      · rw [if_pos (by rw [← heq]), ← heq]
      · by_cases hek : e.1 = k
        · exfalso
          apply hnd.1
          rw [hek]
          exact List.mem_map.mpr ⟨(k, v), hmem', rfl⟩
        · rw [if_neg hek]
          exact ih hnd.2 hmem'

theorem bodyPairs_valid (secrets : List (Chars × Chars))
    (hval : ∀ kv ∈ secrets, validKeyName kv.1 = true) :
    ∀ e ∈ bodyPairs secrets, validKeyName e.1 = true := by
  intro e he
  rcases List.mem_append.mp he with h | h
  · obtain ⟨d, hd, hkp⟩ := List.mem_filterMap.mp h
    obtain ⟨he1, -, -, -⟩ := knownPair_shape secrets d e hkp
    rw [he1]
    simp only [API_KEYS, List.mem_cons, List.not_mem_nil, or_false] at hd
    rcases hd with rfl | rfl | rfl | rfl <;> decide
  · obtain ⟨kv, hkv, hep⟩ := List.mem_filterMap.mp h
    obtain ⟨rfl, -⟩ := extraPair_shape kv e hep
    exact hval _ hkv

/-- Reading back what `writeSecrets` wrote looks a key up among the
serialized entries (last write wins, though keys are unique in
practice). -/
theorem readSecretsMap_writeSecrets (secrets : List (Chars × Chars))
    (hval : ∀ kv ∈ secrets, validKeyName kv.1 = true) (k : Chars) :
    readSecretsMap (writeSecretsContent secrets) k =
      match assocLast (bodyPairs secrets) k with
      | some v => some v
      | none => none := by
  have hvalid_body := bodyPairs_valid secrets hval
  have hnl : ∀ l ∈ writeSecretsLines secrets, '\n' ∉ l := by
    rw [writeSecretsLines_eq]
    intro l hl
    rcases List.mem_append.mp hl with hl | hl
    · rcases List.mem_append.mp hl with hl | hl
      · simp only [headerLines, List.mem_cons, List.not_mem_nil,
          or_false] at hl
        rcases hl with rfl | rfl | rfl
        · decide
        · decide
        · decide
      · obtain ⟨e, hee, rfl⟩ := List.mem_map.mp hl
        exact newline_not_mem_exportLine e.1 e.2 (hvalid_body e hee)
    · simp only [List.mem_singleton] at hl
      subst hl
      simp
  have hsplit : splitNl (writeSecretsContent secrets) =
      writeSecretsLines secrets := by
    apply splitNl_intercalateNl _ hnl
    rw [writeSecretsLines_eq]
    simp [headerLines]
  have hheader : List.foldl readSecretsLine emptyEnvMap headerLines =
      emptyEnvMap := rfl
  have hlastline : ∀ m : EnvMap, List.foldl readSecretsLine m [[]] = m :=
    fun m => rfl
  simp only [readSecretsMap, writeSecretsContent] at *
  rw [hsplit, writeSecretsLines_eq, readSecretsLines, List.foldl_append,
    List.foldl_append, hheader, hlastline,
    readLines_pairs _ _ _ hvalid_body]
  cases assocLast (bodyPairs secrets) k with
  | some v => rfl
  | none => rfl

/-- C8 counterexample: the claim is false on the code — a secrets map
holding a value for the virtual `AMPLIFIER_CONFIGURED` key does not
round-trip: `writeSecrets` skips that key entirely, so `readSecrets` on
the written file yields nothing for it instead of the stored value. -/
theorem c8_amplifier_not_roundtripped :
    mapGet [("AMPLIFIER_CONFIGURED".data, "x".data)]
        "AMPLIFIER_CONFIGURED".data = some "x".data
    ∧ readSecretsMap (writeSecretsContent
          [("AMPLIFIER_CONFIGURED".data, "x".data)])
        "AMPLIFIER_CONFIGURED".data = none := by
  constructor
  · decide
  · decide

/-- C8 (amended): for every secrets map with unique well-formed
environment-variable-name keys, every entry other than the virtual
`AMPLIFIER_CONFIGURED` key — with a non-empty value whenever the key is in
the static API-key table — is yielded back exactly by `readSecrets` after
`writeSecrets`, including values containing double quotes, backticks,
dollar signs, backslashes, or newlines. -/
theorem c8_write_read_roundtrip (secrets : List (Chars × Chars))
    (hnd : (secrets.map Prod.fst).Nodup)
    (hval : ∀ kv ∈ secrets, validKeyName kv.1 = true)
    (k v : Chars) (hmem : (k, v) ∈ secrets) (hampl : k ≠ amplifierVar)
    (htruthy : (∃ d ∈ API_KEYS, d.envVar = k) → v ≠ []) :
    readSecretsMap (writeSecretsContent secrets) k = some v := by
  rw [readSecretsMap_writeSecrets secrets hval k]
  have hget : mapGet secrets k = some v := mapGet_eq_some_of_mem _ _ _ hnd hmem
  have huni : ∀ e ∈ bodyPairs secrets, e.1 = k → e.2 = v := by
    intro e he hek
    rcases List.mem_append.mp he with h | h
    · obtain ⟨d, hd, hkp⟩ := List.mem_filterMap.mp h
      obtain ⟨he1, hm2, -, -⟩ := knownPair_shape secrets d e hkp
      have hdk : d.envVar = k := by rw [← he1, hek]
      rw [hdk, hget] at hm2
      exact (Option.some.injEq _ _ ▸ hm2).symm
    · obtain ⟨kv, hkv, hep⟩ := List.mem_filterMap.mp h
      obtain ⟨rfl, -⟩ := extraPair_shape kv e hep
      have hkmem : (k, e.2) ∈ secrets := by
        rw [← hek]
        exact hkv
      have hg2 := mapGet_eq_some_of_mem _ _ _ hnd hkmem
      rw [hget] at hg2
      exact (Option.some.injEq _ _ ▸ hg2).symm
  have hmem_body : (k, v) ∈ bodyPairs secrets := by
    by_cases hexists : ∃ d ∈ API_KEYS, d.envVar = k
    · obtain ⟨d, hd, hdk⟩ := hexists
      apply List.mem_append.mpr
      left
      apply List.mem_filterMap.mpr
      refine ⟨d, hd, ?_⟩
      have hvne : v.isEmpty = false := by
        cases v with
        | nil => exact absurd rfl (htruthy ⟨d, hd, hdk⟩)
        | cons a b => rfl
      simp only [knownPair, hdk]
      rw [if_neg hampl, hget]
      dsimp only
      rw [hvne]
      rfl
    · apply List.mem_append.mpr
      right
      apply List.mem_filterMap.mpr
      refine ⟨(k, v), hmem, ?_⟩
      have hany : API_KEYS.any (fun d => d.envVar == k) = false := by
        cases hany : API_KEYS.any (fun d => d.envVar == k) with
        | false => rfl
        | true =>
            exfalso
            obtain ⟨d, hd, hb⟩ := List.any_eq_true.mp hany
            exact hexists ⟨d, hd, by simpa [beq_iff_eq] using hb⟩
      simp [extraPair, hany]
  rw [assocLast_eq_some _ _ _ hmem_body huni]

/-- Witness for C8 (amended): a value containing a double quote, backtick,
dollar sign, backslash and newline round-trips exactly for a known API
key. -/
theorem c8_write_read_roundtrip_witness :
    readSecretsMap (writeSecretsContent
        [("ANTHROPIC_API_KEY".data, "a\"b`c$d\\e\nf".data)])
      "ANTHROPIC_API_KEY".data = some "a\"b`c$d\\e\nf".data := by
  exact c8_write_read_roundtrip
    [("ANTHROPIC_API_KEY".data, "a\"b`c$d\\e\nf".data)]
    (by decide) (by decide) "ANTHROPIC_API_KEY".data "a\"b`c$d\\e\nf".data
    (by decide) (by decide) (fun _ => by decide)

/-- C10 counterexample: the claim is false on the code — an input map key
containing a newline splits into two physical lines on write, injecting an
`AMPLIFIER_CONFIGURED` assignment into the persisted file even though the
writer never emitted a line for that key. -/
theorem c10_newline_key_injects_assignment :
    readSecretsMap (writeSecretsContent
        [("BAD\nexport AMPLIFIER_CONFIGURED".data, "evil".data)])
      "AMPLIFIER_CONFIGURED".data = some "evil".data := by
  decide

/-- C10 (amended): for every secrets map whose keys are well-formed
environment-variable names — as is the case for every map the program
itself constructs — the persisted secrets file never contains an
`AMPLIFIER_CONFIGURED` assignment: the known-keys pass skips the virtual
key explicitly and the extra-keys pass excludes all keys of the static
table. -/
theorem c10_no_amplifier_assignment (secrets : List (Chars × Chars))
    (hval : ∀ kv ∈ secrets, validKeyName kv.1 = true) :
    readSecretsMap (writeSecretsContent secrets) amplifierVar = none := by
  rw [readSecretsMap_writeSecrets secrets hval amplifierVar]
  have hne : ∀ e ∈ bodyPairs secrets, e.1 ≠ amplifierVar := by
    intro e he
    rcases List.mem_append.mp he with h | h
    · obtain ⟨d, hd, hkp⟩ := List.mem_filterMap.mp h
      obtain ⟨he1, -, -, hna⟩ := knownPair_shape secrets d e hkp
      rw [he1]
      exact hna
    · obtain ⟨kv, hkv, hep⟩ := List.mem_filterMap.mp h
      obtain ⟨rfl, hany⟩ := extraPair_shape kv e hep
      intro heq
      have hd4 : ∃ d ∈ API_KEYS, d.envVar = amplifierVar := by decide
      obtain ⟨d4, hd4m, hd4e⟩ := hd4
      have : API_KEYS.any (fun d => d.envVar == e.1) = true :=
        List.any_eq_true.mpr ⟨d4, hd4m, by simp [hd4e, heq]⟩
      rw [this] at hany
      cases hany
  rw [assocLast_eq_none _ _ hne]

/-- Witness for C10 (amended): a map with an ordinary extra key produces a
file with no `AMPLIFIER_CONFIGURED` assignment. -/
theorem c10_no_amplifier_assignment_witness :
    readSecretsMap (writeSecretsContent [("MY_TOKEN".data, "zzz".data)])
      amplifierVar = none :=
  c10_no_amplifier_assignment [("MY_TOKEN".data, "zzz".data)] (by decide)

theorem scanLineStep_lineVal_none (src : String) (m : ScanMap)
    (k line : Chars) (h : lineVal k line = none) :
    scanLineStep src m line k = m k := by
  simp only [scanLineStep, lineVal] at h ⊢
  by_cases hb : ((trimL line).isEmpty || ((trimL line).head? == some '#'))
      = true
  · rw [if_pos hb]
  · rw [if_neg hb] at h ⊢
    cases hp : parseEnvLine (trimL line) with
    | none => rfl
    | some kv =>
        rw [hp] at h
        dsimp only at h ⊢
        by_cases hk : kv.1 = k
        · rw [if_pos hk] at h
          cases h
        · by_cases hg : (targetVars.contains kv.1 && (m kv.1).isNone) = true
          · rw [if_pos hg]
            simp only [scanSet]
            rw [if_neg (fun hh : k = kv.1 => hk hh.symm)]
          · rw [if_neg hg]

theorem scanLineStep_lineVal_some (src : String) (m : ScanMap)
    (k line v : Chars) (hm : m k = none)
    (ht : targetVars.contains k = true) (h : lineVal k line = some v) :
    scanLineStep src m line k = some ⟨v, src⟩ := by
  simp only [scanLineStep, lineVal] at h ⊢
  by_cases hb : ((trimL line).isEmpty || ((trimL line).head? == some '#'))
      = true
  · rw [if_pos hb] at h
    cases h
  · rw [if_neg hb] at h ⊢
    cases hp : parseEnvLine (trimL line) with
    | none =>
        rw [hp] at h
        simp at h
    | some kv =>
        rw [hp] at h
        dsimp only at h ⊢
        by_cases hk : kv.1 = k
        · rw [if_pos hk] at h
          simp only [Option.some.injEq] at h
          rw [if_pos (by rw [hk, ht, hm]; rfl)]
          simp only [scanSet]
          rw [if_pos hk.symm, h]
        · rw [if_neg hk] at h
          cases h

theorem scanLineStep_preserve (src : String) (m : ScanMap) (k line : Chars)
    (h : (m k).isSome = true) : scanLineStep src m line k = m k := by
  simp only [scanLineStep]
  by_cases hb : ((trimL line).isEmpty || ((trimL line).head? == some '#'))
      = true
  · rw [if_pos hb]
  · rw [if_neg hb]
    cases hp : parseEnvLine (trimL line) with
    | none => rfl
    | some kv =>
        dsimp only
        by_cases hg : (targetVars.contains kv.1 && (m kv.1).isNone) = true
        · rw [if_pos hg]
          simp only [scanSet]
          by_cases hk : k = kv.1
          · exfalso
            rw [← hk] at hg
            simp only [Bool.and_eq_true, Option.isNone_iff_eq_none] at hg
            rw [hg.2] at h
            cases h
          · rw [if_neg hk]
        · rw [if_neg hg]

theorem scanLines_preserve (src : String) (lines : List Chars) (m : ScanMap)
    (k : Chars) (h : (m k).isSome = true) :
    (lines.foldl (scanLineStep src) m) k = m k := by
  induction lines generalizing m with
  | nil => rfl
  | cons line rest ih =>
      rw [List.foldl_cons]
      have h1 := scanLineStep_preserve src m k line h
      rw [ih _ (by rw [h1]; exact h), h1]

theorem scanLines_none (src : String) (lines : List Chars) (m : ScanMap)
    (k : Chars) (h : firstValLines k lines = none) :
    (lines.foldl (scanLineStep src) m) k = m k := by
  induction lines generalizing m with
  | nil => rfl
  | cons line rest ih =>
      simp only [firstValLines] at h
      cases hl : lineVal k line with
      | some v =>
          rw [hl] at h
          cases h
      | none =>
          rw [hl] at h
          rw [List.foldl_cons, ih _ h,
            scanLineStep_lineVal_none src m k line hl]

theorem scanLines_hit (src : String) (lines : List Chars) (m : ScanMap)
    (k v : Chars) (hm : m k = none) (ht : targetVars.contains k = true)
    (h : firstValLines k lines = some v) :
    (lines.foldl (scanLineStep src) m) k = some ⟨v, src⟩ := by
  induction lines generalizing m with
  | nil => cases h
  | cons line rest ih =>
      simp only [firstValLines] at h
      rw [List.foldl_cons]
      cases hl : lineVal k line with
      | some w =>
          rw [hl] at h
          dsimp only at h
          simp only [Option.some.injEq] at h
          have hstep := scanLineStep_lineVal_some src m k line w hm ht hl
          rw [scanLines_preserve src rest _ k (by rw [hstep]; rfl), hstep, h]
      | none =>
          rw [hl] at h
          exact ih _
            (by rw [scanLineStep_lineVal_none src m k line hl]; exact hm) h

theorem scanFileStep_preserve (env : ScanEnv) (m : ScanMap) (k : Chars)
    (p : String) (h : (m k).isSome = true) : scanFileStep env m p k = m k := by
  simp only [scanFileStep]
  cases env.fileText p with
  | none => rfl
  | some data => exact scanLines_preserve _ _ _ _ h

theorem scanFileStep_none (env : ScanEnv) (m : ScanMap) (k : Chars)
    (p : String) (h : pathFirstVal env p k = none) :
    scanFileStep env m p k = m k := by
  simp only [scanFileStep, pathFirstVal] at h ⊢
  cases hf : env.fileText p with
  | none => rfl
  | some data =>
      rw [hf] at h
      exact scanLines_none _ _ _ _ h

theorem scanFileStep_hit (env : ScanEnv) (m : ScanMap) (k v : Chars)
    (p : String) (hm : m k = none) (ht : targetVars.contains k = true)
    (h : pathFirstVal env p k = some v) :
    scanFileStep env m p k = some ⟨v, relPath p⟩ := by
  simp only [scanFileStep, pathFirstVal] at h ⊢
  cases hf : env.fileText p with
  | none =>
      rw [hf] at h
      cases h
  | some data =>
      rw [hf] at h
      exact scanLines_hit _ _ _ _ _ hm ht h

theorem scanPaths_preserve (env : ScanEnv) (paths : List String)
    (m : ScanMap) (k : Chars) (h : (m k).isSome = true) :
    (paths.foldl (scanFileStep env) m) k = m k := by
  induction paths generalizing m with
  | nil => rfl
  | cons p rest ih =>
      rw [List.foldl_cons]
      have h1 := scanFileStep_preserve env m k p h
      rw [ih _ (by rw [h1]; exact h), h1]

theorem scanPaths_hit (env : ScanEnv) (P1 : List String) (p : String)
    (P2 : List String) (m : ScanMap) (k v : Chars) (hm : m k = none)
    (ht : targetVars.contains k = true)
    (hP1 : ∀ q ∈ P1, pathFirstVal env q k = none)
    (hp : pathFirstVal env p k = some v) :
    ((P1 ++ p :: P2).foldl (scanFileStep env) m) k = some ⟨v, relPath p⟩ := by
  induction P1 generalizing m with
  | nil =>
      rw [List.nil_append, List.foldl_cons]
      have hstep := scanFileStep_hit env m k v p hm ht hp
      rw [scanPaths_preserve env P2 _ k (by rw [hstep]; rfl), hstep]
  | cons q Q ih =>
      rw [List.cons_append, List.foldl_cons]
      exact ih _
        (by rw [scanFileStep_none env m k q (hP1 q (by simp))]; exact hm)
        (fun r hr => hP1 r (List.mem_cons_of_mem q hr))

theorem scanEnvStep_ne (env : ScanEnv) (m : ScanMap) (x k : Chars)
    (hx : x ≠ k) : scanEnvStep env m x k = m k := by
  simp only [scanEnvStep]
  by_cases h1 : x = amplifierVar
  · rw [if_pos h1]
  · rw [if_neg h1]
    cases env.envVal x with
    | none => rfl
    | some v =>
        dsimp only
        by_cases h2 : v.isEmpty = true
        · rw [if_pos h2]
        · rw [if_neg h2]
          simp only [scanSet]
          rw [if_neg (fun hh : k = x => hx hh.symm)]

theorem scanEnvStep_self (env : ScanEnv) (m : ScanMap) (k v : Chars)
    (hk : k ≠ amplifierVar) (he : env.envVal k = some v)
    (hv : v.isEmpty = false) :
    scanEnvStep env m k k = some ⟨v, "environment"⟩ := by
  simp only [scanEnvStep]
  rw [if_neg hk, he]
  dsimp only
  rw [hv]
  simp [scanSet]

theorem scanEnvPhase_found (env : ScanEnv) (k v : Chars)
    (hkt : targetVars.contains k = true) (hk : k ≠ amplifierVar)
    (he : env.envVal k = some v) (hv : v.isEmpty = false) :
    scanEnvPhase env k = some ⟨v, "environment"⟩ := by
  have hmem : k ∈ targetVars := by simpa using hkt
  have hk3 : k = "ANTHROPIC_API_KEY".data ∨ k = "OPENAI_API_KEY".data ∨
      k = "GITHUB_TOKEN".data := by
    simp only [targetVars, API_KEYS, List.map_cons, List.map_nil,
      List.mem_cons, List.not_mem_nil, or_false] at hmem
    rcases hmem with h | h | h | h
    · exact Or.inl h
    · exact Or.inr (Or.inl h)
    · exact Or.inr (Or.inr h)
    · exact absurd h hk
  simp only [scanEnvPhase, targetVars, API_KEYS, List.map_cons, List.map_nil,
    List.foldl_cons, List.foldl_nil]
  rcases hk3 with rfl | rfl | rfl
  · rw [scanEnvStep_ne env _ _ _ (by decide), scanEnvStep_ne env _ _ _
      (by decide), scanEnvStep_ne env _ _ _ (by decide)]
    exact scanEnvStep_self env emptyScanMap _ v hk he hv
  · rw [scanEnvStep_ne env _ _ _ (by decide), scanEnvStep_ne env _ _ _
      (by decide)]
    rw [scanEnvStep_self env _ _ v hk he hv]
  · rw [scanEnvStep_ne env _ _ _ (by decide)]
    rw [scanEnvStep_self env _ _ v hk he hv]

theorem scan_final_preserve (env : ScanEnv) (k : Chars)
    (h : ((scanFilesPhase env (scanEnvPhase env)) k).isSome = true) :
    scanForExistingKeys env k = scanFilesPhase env (scanEnvPhase env) k := by
  simp only [scanForExistingKeys]
  by_cases hc : (((scanFilesPhase env (scanEnvPhase env))
      amplifierVar).isNone && amplifierKeysConfigured env) = true
  · rw [if_pos hc]
    simp only [scanSet]
    by_cases hk : k = amplifierVar
    · exfalso
      simp only [Bool.and_eq_true, Option.isNone_iff_eq_none] at hc
      rw [hk, hc.1] at h
      simp at h
    · rw [if_neg hk]
  · rw [if_neg hc]

/-- C7: the first source in the fixed precedence order wins.  A target
variable present (non-empty) in the process environment is reported with
source `environment` regardless of the scanned files; a variable the
environment pass did not find is reported from the first file of the fixed
search-path list that assigns it, with that file's display path as the
source — later files never overwrite the earlier find. -/
theorem c7_first_source_wins (env : ScanEnv) (k v : Chars) :
    (targetVars.contains k = true → k ≠ amplifierVar →
      env.envVal k = some v → v.isEmpty = false →
      scanForExistingKeys env k = some ⟨v, "environment"⟩)
    ∧ (∀ P1 p P2, getSearchPaths = P1 ++ p :: P2 →
        targetVars.contains k = true →
        scanEnvPhase env k = none →
        (∀ q ∈ P1, pathFirstVal env q k = none) →
        pathFirstVal env p k = some v →
        scanForExistingKeys env k = some ⟨v, relPath p⟩) := by
  constructor
  · intro hkt hk he hv
    have henv := scanEnvPhase_found env k v hkt hk he hv
    have hfile : scanFilesPhase env (scanEnvPhase env) k =
        some ⟨v, "environment"⟩ := by
      unfold scanFilesPhase
      rw [scanPaths_preserve env getSearchPaths (scanEnvPhase env) k
        (by rw [henv]; rfl), henv]
    rw [scan_final_preserve env k (by rw [hfile]; rfl), hfile]
  · intro P1 p P2 hdecomp hkt henv hP1 hp
    have hfile : scanFilesPhase env (scanEnvPhase env) k =
        some ⟨v, relPath p⟩ := by
      unfold scanFilesPhase
      rw [hdecomp]
      exact scanPaths_hit env P1 p P2 (scanEnvPhase env) k v henv hkt hP1 hp
    rw [scan_final_preserve env k (by rw [hfile]; rfl), hfile]

/-- Witness for C7: in a concrete environment the Anthropic key present in
both the process environment and the secrets file is reported from the
environment, and the OpenAI key present in the secrets file and in
`~/.zshrc` is reported from the secrets file (the earlier path). -/
theorem c7_first_source_wins_witness :
    scanForExistingKeys scanDemoEnv "ANTHROPIC_API_KEY".data =
      some ⟨"sk-env".data, "environment"⟩
    ∧ scanForExistingKeys scanDemoEnv "OPENAI_API_KEY".data =
      some ⟨"sk-secrets".data, relPath SECRETS_FILE⟩ := by
  constructor
  · exact (c7_first_source_wins scanDemoEnv "ANTHROPIC_API_KEY".data
      "sk-env".data).1 (by decide) (by decide) (by decide) (by decide)
  · exact (c7_first_source_wins scanDemoEnv "OPENAI_API_KEY".data
      "sk-secrets".data).2 [] SECRETS_FILE
      [home ++ "/.env", home ++ "/.secrets", home ++ "/.secrets.env",
       home ++ "/.zshrc", home ++ "/.bashrc", home ++ "/.bash_profile",
       home ++ "/.profile", home ++ "/.zshenv", home ++ "/.config/.env",
       home ++ "/.config/env", home ++ "/.config/secrets",
       home ++ "/.amplifier/keys.env"] rfl (by decide) (by decide)
      (fun q hq => absurd hq (List.not_mem_nil q)) (by decide)

/-- Witness for C6: enabling the session-only amplifier agent with its
binary detected yields a toggle state that is session-only and not
enabled. -/
theorem c6_session_only_never_enabled_witness :
    ∃ cfg, (enableYolo ⟨fun _ => none, fun _ _ => true⟩
      AgentType.amplifier).1.config = some cfg ∧ cfg.sessionOnly = true ∧
      cfg.enabled = false := by
  refine ⟨_, rfl, rfl, ?_⟩
  exact (c6_session_only_never_enabled ⟨fun _ => none, fun _ _ => true⟩
    AgentType.amplifier).1 _ rfl rfl

end LetsYolo
